import Mathlib

/-!
# CustomMemoryAllocator: a shallow embedding of `allocator.c`

The allocator manages one buffer (`memory_pool`) that holds a singly linked chain of
`MemoryBlock` headers, each followed by its payload.

Embedding choices.

* The chain that starts at `first_block` and follows `next` is a `List MemoryBlock`
  (list order is `next` order, `[]` is `NULL`).  Every node carries the offset of its
  header from `memory_pool` in the field `addr`; the operations compute these offsets
  exactly as the C code computes the pointers, so that the layout of the chain is a
  property to be proved and not a by-product of the representation.
* A pointer into the pool is its offset (`Nat`); a `void*` is an `Option Nat` with
  `none` for `NULL`.
* `size_t` is the LP64 one: arithmetic on sizes is written on `Nat` with an explicit
  `% SIZE_MOD` wherever the C code adds, subtracts or multiplies `size_t` values, and
  `sizeof(MemoryBlock)` is 24 (`size_t`, `unsigned char` + padding, pointer).
* The bytes of the pool are a function `Nat → Option Nat`: `some v` is a byte value
  stored as data (by the client, `memset` or `memcpy`), `none` is a byte that holds no
  data (never written, or part of the image of a header).  Creating a header inside a
  payload (`split_block`) turns the 24 bytes it occupies into `none`.
* Reading or writing a header through a pointer that does not designate a header of
  the chain is undefined behaviour in C; `mem_free` and `mem_realloc` return `none`
  there.
-/

namespace CustomMemoryAllocator

/-! ## Constants of the ABI -/

/-- The value of `sizeof(MemoryBlock)` under LP64: 8 (`size_t`) + 1 (`unsigned char`)
+ 7 (padding) + 8 (pointer). -/
def sizeof_MemoryBlock : Nat := 24

/-- The largest `size_t`, `(size_t)-1`, that is `2^64 - 1`. -/
def SIZE_MAX : Nat := 18446744073709551615

/-- The modulus of `size_t` arithmetic, `2^64`. -/
def SIZE_MOD : Nat := 18446744073709551616

/-- The largest size of a C object, `2^63 - 1`: `malloc` returns no larger buffer. -/
def PTRDIFF_MAX : Nat := 9223372036854775807

/-! ## Data model (`allocator.h`) -/

/-- The enum `AllocationStrategy`. -/
inductive AllocationStrategy where
  | FIRST_FIT
  | BEST_FIT
  deriving DecidableEq, Repr

/-- A node of the chain: `struct MemoryBlock` together with the offset `addr` of the
struct from `memory_pool`.  The field `next` is the rest of the list. -/
structure MemoryBlock where
  addr : Nat
  size : Nat
  is_free : Bool
  deriving DecidableEq, Repr

/-- The file-scope state of `allocator.c`.  `memory_pool = none` is `NULL`;
`first_block = []` is `NULL`. -/
structure Allocator where
  memory_pool : Option (Nat → Option Nat)
  memory_pool_size : Nat
  current_strategy : AllocationStrategy
  first_block : List MemoryBlock

/-- The state before any call: the initial values of the four statics. -/
def static_state : Allocator :=
  { memory_pool := none, memory_pool_size := 0,
    current_strategy := AllocationStrategy.FIRST_FIT, first_block := [] }

/-! ## Memory primitives -/

/-- Storing a fresh header at offset `a`: the `sizeof(MemoryBlock)` bytes from `a` on
stop holding data. -/
def store_header (a : Nat) (m : Nat → Option Nat) : Nat → Option Nat :=
  fun i => if a ≤ i ∧ i < a + sizeof_MemoryBlock then none else m i

/-- The library call `memset(dst, c, n)`. -/
def memset (dst c n : Nat) (m : Nat → Option Nat) : Nat → Option Nat :=
  fun i => if dst ≤ i ∧ i < dst + n then some c else m i

/-- The library call `memcpy(dst, src, n)`. -/
def memcpy (dst src n : Nat) (m : Nat → Option Nat) : Nat → Option Nat :=
  fun i => if dst ≤ i ∧ i < dst + n then m (src + (i - dst)) else m i

/-- The byte of the pool at offset `a` (`none` when there is no pool). -/
def read_byte (s : Allocator) (a : Nat) : Option Nat :=
  match s.memory_pool with
  | none => none
  | some m => m a

/-! ## Walking the chain -/

/-- The header stored at offset `a`, when `a` is the offset of a node of the chain. -/
def header_at (chain : List MemoryBlock) (a : Nat) : Option MemoryBlock :=
  chain.find? (fun b => decide (b.addr = a))

/-- The node `block->next` for the node at offset `a`. -/
def next_block : List MemoryBlock → Nat → Option MemoryBlock
  | [], _ => none
  | b :: next, a => if b.addr = a then next.head? else next_block next a

/-- An update through a header pointer: the node at offset `block` and the chain
after it are replaced by `f node rest`; the nodes before it are untouched. -/
def at_block (f : MemoryBlock → List MemoryBlock → List MemoryBlock) :
    List MemoryBlock → Nat → List MemoryBlock
  | [], _ => []
  | b :: next, block => if b.addr = block then f b next else b :: at_block f next block

/-- The store `block->is_free = v`. -/
def set_is_free (v : Bool) (chain : List MemoryBlock) (block : Nat) : List MemoryBlock :=
  at_block (fun b next => { b with is_free := v } :: next) chain block

/-- The two stores `block->size += sizeof(MemoryBlock) + block->next->size;
block->next = block->next->next;` (lines 93-94 and 156-157). -/
def absorb_next (b : MemoryBlock) (next : List MemoryBlock) : List MemoryBlock :=
  match next with
  | [] => [b]
  | n :: rest =>
    { b with size := (b.size + (sizeof_MemoryBlock + n.size) % SIZE_MOD) % SIZE_MOD } :: rest

/-! ## `allocator.c` -/

/-- The function `get_data_pointer`, line 11. -/
def get_data_pointer (block : Nat) : Nat := block + sizeof_MemoryBlock

/-- The function `get_block_header`, line 15.  A pointer less than `sizeof(MemoryBlock)`
bytes into the pool has no header inside the pool. -/
def get_block_header (data : Nat) : Option Nat :=
  if sizeof_MemoryBlock ≤ data then some (data - sizeof_MemoryBlock) else none

/-- The function `cleanup_allocator`, line 34. -/
def cleanup_allocator (s : Allocator) : Allocator :=
  match s.memory_pool with
  | some _ => { s with memory_pool := none, memory_pool_size := 0, first_block := [] }
  | none => s

/-- The function `init_allocator`, line 19.  The buffer returned by `malloc` holds no
data. -/
def init_allocator (s : Allocator) (size : Nat) (strategy : AllocationStrategy) :
    Allocator :=
  { (if s.memory_pool.isSome then cleanup_allocator s else s) with
    memory_pool := some (fun _ => none)
    memory_pool_size := size
    current_strategy := strategy
    first_block :=
      [{ addr := 0, size := (size + SIZE_MOD - sizeof_MemoryBlock) % SIZE_MOD, is_free := true }] }

/-- The loop of `find_first_fit` from the node `current` on. -/
def find_first_fit_from : List MemoryBlock → Nat → Option MemoryBlock
  | [], _ => none
  | current :: next, size =>
    if current.is_free ∧ current.size ≥ size then some current
    else find_first_fit_from next size

/-- The function `find_first_fit`, line 43. -/
def find_first_fit (s : Allocator) (size : Nat) : Option MemoryBlock :=
  find_first_fit_from s.first_block size

/-- The loop of `find_best_fit` from the node `current` on, with the running
`best_block` and `smallest_size`. -/
def find_best_fit_from : List MemoryBlock → Option MemoryBlock → Nat → Nat → Option MemoryBlock
  | [], best_block, _, _ => best_block
  | current :: next, best_block, smallest_size, size =>
    if current.is_free ∧ current.size ≥ size then
      if current.size < smallest_size then
        find_best_fit_from next (some current) current.size size
      else find_best_fit_from next best_block smallest_size size
    else find_best_fit_from next best_block smallest_size size

/-- The function `find_best_fit`, line 56. -/
def find_best_fit (s : Allocator) (size : Nat) : Option MemoryBlock :=
  find_best_fit_from s.first_block none SIZE_MAX size

/-- The stores of `split_block` (lines 77-84) on the node `b` with chain `next`. -/
def split_node (size : Nat) (b : MemoryBlock) (next : List MemoryBlock) : List MemoryBlock :=
  { b with size := size } ::
    { addr := b.addr + sizeof_MemoryBlock + size,
      size := (b.size + 2 * SIZE_MOD - size - sizeof_MemoryBlock) % SIZE_MOD,
      is_free := true } :: next

/-- The function `split_block`, line 74. -/
def split_block (s : Allocator) (block : Nat) (size : Nat) : Allocator :=
  match header_at s.first_block block with
  | none => s
  | some b =>
    if b.size > (size + sizeof_MemoryBlock + 8) % SIZE_MOD then
      { s with
        memory_pool := s.memory_pool.map (store_header (block + sizeof_MemoryBlock + size))
        first_block := at_block (split_node size) s.first_block block }
    else s

/-- The loop of `coalesce_blocks` with `current` and the chain `current->next`. -/
def coalesce_from : MemoryBlock → List MemoryBlock → List MemoryBlock
  | current, [] => [current]
  | current, n :: rest =>
    if current.is_free ∧ n.is_free then
      coalesce_from
        { current with
          size := (current.size + (sizeof_MemoryBlock + n.size) % SIZE_MOD) % SIZE_MOD } rest
    else current :: coalesce_from n rest

/-- The function `coalesce_blocks`, line 88. -/
def coalesce_blocks (s : Allocator) : Allocator :=
  match s.first_block with
  | [] => s
  | current :: next => { s with first_block := coalesce_from current next }

/-- The value of `block` after lines 107-113 of `mem_alloc`. -/
def chosen_block (s : Allocator) (size : Nat) : Option MemoryBlock :=
  if s.current_strategy = AllocationStrategy.FIRST_FIT then find_first_fit s size
  else find_best_fit s size

/-- The function `mem_alloc`, line 102. -/
def mem_alloc (s : Allocator) (size : Nat) : Allocator × Option Nat :=
  if size = 0 ∨ s.memory_pool.isNone then (s, none)
  else
    match chosen_block s size with
    | none => (s, none)
    | some block =>
      let s1 := split_block s block.addr size
      ({ s1 with first_block := set_is_free false s1.first_block block.addr },
        some (get_data_pointer block.addr))

/-- The function `mem_calloc`, line 125. -/
def mem_calloc (s : Allocator) (num size : Nat) : Allocator × Option Nat :=
  match mem_alloc s ((num * size) % SIZE_MOD) with
  | (s1, none) => (s1, none)
  | (s1, some ptr) =>
    ({ s1 with memory_pool := s1.memory_pool.map (memset ptr 0 ((num * size) % SIZE_MOD)) },
      some ptr)

/-- The function `mem_free`, line 175. -/
def mem_free (s : Allocator) (ptr : Option Nat) : Option Allocator :=
  match ptr with
  | none => some s
  | some p =>
    if s.memory_pool.isNone then some s
    else
      match (get_block_header p).bind (header_at s.first_block) with
      | none => none
      | some block =>
        some (coalesce_blocks { s with first_block := set_is_free true s.first_block block.addr })

/-- The tail of `mem_realloc` from line 163 on: allocate, copy, release. -/
def realloc_move (s : Allocator) (p : Nat) (block : Nat) (new_size : Nat) :
    Option (Allocator × Option Nat) :=
  match mem_alloc s new_size with
  | (s1, none) => some (s1, none)
  | (s1, some new_ptr) =>
    match header_at s1.first_block block with
    | none => none
    | some b =>
      (mem_free { s1 with memory_pool := s1.memory_pool.map (memcpy new_ptr p b.size) }
        (some p)).map (fun s2 => (s2, some new_ptr))

/-- The function `mem_realloc`, line 136. -/
def mem_realloc (s : Allocator) (ptr : Option Nat) (new_size : Nat) :
    Option (Allocator × Option Nat) :=
  match ptr with
  | none => some (mem_alloc s new_size)
  | some p =>
    if new_size = 0 then (mem_free s (some p)).map (fun s1 => (s1, none))
    else
      match (get_block_header p).bind (header_at s.first_block) with
      | none => none
      | some block =>
        if block.size ≥ new_size then some (split_block s block.addr new_size, some p)
        else
          match next_block s.first_block block.addr with
          | some n =>
            if n.is_free ∧
                (block.size + sizeof_MemoryBlock + n.size) % SIZE_MOD ≥ new_size then
              some (split_block
                { s with first_block := at_block absorb_next s.first_block block.addr }
                block.addr new_size, some p)
            else realloc_move s p block.addr new_size
          | none => realloc_move s p block.addr new_size

/-- The loop of `get_free_memory` with the running `free_memory`. -/
def get_free_memory_from : List MemoryBlock → Nat → Nat
  | [], free_memory => free_memory
  | current :: next, free_memory =>
    if current.is_free then get_free_memory_from next ((free_memory + current.size) % SIZE_MOD)
    else get_free_memory_from next free_memory

/-- The function `get_free_memory`, line 222. -/
def get_free_memory (s : Allocator) : Nat := get_free_memory_from s.first_block 0

/-- The loop of `get_used_memory` with the running `used_memory`. -/
def get_used_memory_from : List MemoryBlock → Nat → Nat
  | [], used_memory => used_memory
  | current :: next, used_memory =>
    if !current.is_free then
      get_used_memory_from next ((used_memory + current.size) % SIZE_MOD)
    else get_used_memory_from next used_memory

/-- The function `get_used_memory`, line 236. -/
def get_used_memory (s : Allocator) : Nat := get_used_memory_from s.first_block 0

/-- The first loop of `get_fragmentation` with the running `free_block_count`. -/
def free_block_count_from : List MemoryBlock → Nat → Nat
  | [], free_block_count => free_block_count
  | current :: next, free_block_count =>
    if current.is_free then free_block_count_from next (free_block_count + 1)
    else free_block_count_from next free_block_count

/-- The second loop of `get_fragmentation` with the running `total_blocks`. -/
def total_blocks_from : List MemoryBlock → ℚ → ℚ
  | [], total_blocks => total_blocks
  | _ :: next, total_blocks => total_blocks_from next (total_blocks + 1)

/-- The function `get_fragmentation`, line 250, over exact numbers: the `float`
values are rationals and the counter `free_block_count` is exact. -/
def get_fragmentation (s : Allocator) : ℚ :=
  if free_block_count_from s.first_block 0 ≤ 1 then 0
  else
    (((free_block_count_from s.first_block 0 : Int) - 1 : Int) : ℚ) /
      (total_blocks_from s.first_block 0 - 1)

/-! ## The client of the allocator -/

/-- The calls a client makes: the four public operations, and a store of the byte `v`
at index `i` of a payload it owns. -/
inductive Op where
  | alloc (size : Nat)
  | calloc (num size : Nat)
  | realloc (ptr : Option Nat) (new_size : Nat)
  | free (ptr : Option Nat)
  | store (ptr i v : Nat)

/-- The allocator together with the pointers it has returned and that have not been
released since (the live pointers). -/
structure Client where
  heap : Allocator
  live : List Nat

/-- The live pointers after `mem_realloc(p, new_size)` returned `r`. -/
def live_after_realloc (live : List Nat) (p new_size : Nat) (r : Option Nat) : List Nat :=
  if new_size = 0 then live.filter (fun q => decide (q ≠ p))
  else
    match r with
    | none => live
    | some q => live.filter (fun q' => decide (q' ≠ p)) ++ [q]

/-- One call of the client.  The result is `none` when the client passes a pointer
that is not live (or stores outside the block it owns), or when the call itself has
no defined result. -/
def step (c : Client) : Op → Option Client
  | Op.alloc size =>
    some { heap := (mem_alloc c.heap size).1, live := c.live ++ (mem_alloc c.heap size).2.toList }
  | Op.calloc num size =>
    some { heap := (mem_calloc c.heap num size).1,
           live := c.live ++ (mem_calloc c.heap num size).2.toList }
  | Op.realloc none new_size =>
    some { heap := (mem_alloc c.heap new_size).1,
           live := c.live ++ (mem_alloc c.heap new_size).2.toList }
  | Op.realloc (some p) new_size =>
    if p ∈ c.live then
      (mem_realloc c.heap (some p) new_size).map
        (fun r => { heap := r.1, live := live_after_realloc c.live p new_size r.2 })
    else none
  | Op.free none => some c
  | Op.free (some p) =>
    if p ∈ c.live then
      (mem_free c.heap (some p)).map
        (fun s => { heap := s, live := c.live.filter (fun q => decide (q ≠ p)) })
    else none
  | Op.store p i v =>
    match (get_block_header p).bind (header_at c.heap.first_block) with
    | none => none
    | some b =>
      if p ∈ c.live ∧ i < b.size then
        some { c with heap :=
          { c.heap with memory_pool := c.heap.memory_pool.map (memset (p + i) v 1) } }
      else none

/-- A finite sequence of calls. -/
def run (c : Client) : List Op → Option Client
  | [] => some c
  | op :: ops => (step c op).bind (fun c1 => run c1 ops)

/-- The client right after `init_allocator(capacity, strategy)`, called in the state
`s0`: no pointer is live. -/
def fresh (s0 : Allocator) (capacity : Nat) (strategy : AllocationStrategy) : Client :=
  { heap := init_allocator s0 capacity strategy, live := [] }

/-! ## Properties of a chain -/

/-- The chain `chain` tiles the offsets from `a` to `e`: its first header is at `a`,
each header is right behind the payload of the node before it, and the last payload
ends at `e`. -/
def chain_ok : Nat → List MemoryBlock → Nat → Prop
  | a, [], e => a = e
  | a, b :: next, e => b.addr = a ∧ chain_ok (a + sizeof_MemoryBlock + b.size) next e

/-- Whether some node of the chain and its successor are both free. -/
def has_adjacent_free : List MemoryBlock → Bool
  | [] => false
  | b :: next =>
    (match next with
     | [] => false
     | n :: _ => b.is_free && n.is_free) || has_adjacent_free next

/-- The pointer `p` is the payload of a node of the chain that is in use. -/
def in_use (chain : List MemoryBlock) (p : Nat) : Prop :=
  ∃ b, b ∈ chain ∧ get_data_pointer b.addr = p ∧ b.is_free = false

/-- Well-formed allocator: there is a pool, it can hold a header and is an object C
can have, and the chain tiles it. -/
def well_formed (s : Allocator) : Prop :=
  s.memory_pool.isSome = true ∧ sizeof_MemoryBlock ≤ s.memory_pool_size ∧
    s.memory_pool_size ≤ PTRDIFF_MAX ∧ chain_ok 0 s.first_block s.memory_pool_size

/-- The invariant of a client: the allocator is well formed and every live pointer
is the payload of a node in use. -/
def client_ok (c : Client) : Prop :=
  well_formed c.heap ∧ ∀ p, p ∈ c.live → in_use c.heap.first_block p

/-- Every block in use is the block of a live pointer. -/
def used_are_live (c : Client) : Prop :=
  ∀ x, x ∈ c.heap.first_block → x.is_free = false → get_data_pointer x.addr ∈ c.live

/-- The clients that exist after `init_allocator(capacity, strategy)`, called in any
state with a capacity that holds a header and that `malloc` can serve, and a finite
sequence of calls on live pointers. -/
def reachable (c : Client) : Prop :=
  ∃ (s0 : Allocator) (capacity : Nat) (strategy : AllocationStrategy) (ops : List Op),
    sizeof_MemoryBlock ≤ capacity ∧ capacity ≤ PTRDIFF_MAX ∧
      run (fresh s0 capacity strategy) ops = some c

/-! ## The scenarios of `main.c` -/

/-- The first half of `strategy_test` (lines 116-125): three allocations, then the
release of the second one. -/
def strategy_test_first_fit : List Op :=
  [Op.alloc 100, Op.alloc 200, Op.alloc 300, Op.free (some 148)]

/-- The second half of `strategy_test` (lines 141-151): three allocations, then the
release of the first and of the second one. -/
def strategy_test_best_fit : List Op :=
  [Op.alloc 100, Op.alloc 200, Op.alloc 300, Op.free (some 24), Op.free (some 148)]

/-- The ten allocations of `fragmentation_test` (lines 176-179). -/
def fragmentation_test_allocs : List Op := List.replicate 10 (Op.alloc 40)

/-- The releases of `ptrs[0]`, `ptrs[2]`, ..., `ptrs[8]` in `fragmentation_test`
(lines 183-186). -/
def fragmentation_test_frees : List Op :=
  [Op.free (some 24), Op.free (some 152), Op.free (some 280), Op.free (some 408),
   Op.free (some 536)]

/-- The rest of `fragmentation_test` (lines 190-201): the allocation of 100 bytes, its
release, and the release of `ptrs[1]`, `ptrs[3]`, ..., `ptrs[9]`. -/
def fragmentation_test_rest : List Op :=
  [Op.alloc 100, Op.free (some 664), Op.free (some 88), Op.free (some 216),
   Op.free (some 344), Op.free (some 472), Op.free (some 600)]

/-- The bytes of the `int` values `0, 10, 20, 30, 40` (little endian, four bytes each)
that `realloc_test` writes into its array (lines 74-77). -/
def realloc_test_stores : List Op :=
  [Op.store 24 0 0, Op.store 24 1 0, Op.store 24 2 0, Op.store 24 3 0,
   Op.store 24 4 10, Op.store 24 5 0, Op.store 24 6 0, Op.store 24 7 0,
   Op.store 24 8 20, Op.store 24 9 0, Op.store 24 10 0, Op.store 24 11 0,
   Op.store 24 12 30, Op.store 24 13 0, Op.store 24 14 0, Op.store 24 15 0,
   Op.store 24 16 40, Op.store 24 17 0, Op.store 24 18 0, Op.store 24 19 0]

/-- The bytes of the payload at `p`, `n` of them. -/
def payload (s : Allocator) (p n : Nat) : List (Option Nat) :=
  (List.range n).map (fun i => read_byte s (p + i))


/-! ## Theorems -/

/-! ### Layout of a tiled chain -/

theorem chain_ok_le {chain : List MemoryBlock} {a e : Nat} (h : chain_ok a chain e) : a ≤ e := by
  induction chain generalizing a with
  | nil => exact Nat.le_of_eq h
  | cons b next ih =>
    have := ih h.2
    omega

theorem chain_ok_mem {chain : List MemoryBlock} {a e : Nat} {b : MemoryBlock}
    (h : chain_ok a chain e) (hb : b ∈ chain) :
    a ≤ b.addr ∧ b.addr + sizeof_MemoryBlock + b.size ≤ e := by
  induction chain generalizing a with
  | nil => cases hb
  | cons c next ih =>
    obtain ⟨hc, hn⟩ := h
    rcases List.mem_cons.1 hb with rfl | hb
    · have := chain_ok_le hn
      omega
    · have := ih hn hb
      simp only [sizeof_MemoryBlock] at this ⊢
      omega

theorem header_at_some {chain : List MemoryBlock} {x : Nat} {b : MemoryBlock}
    (h : header_at chain x = some b) : b ∈ chain ∧ b.addr = x := by
  unfold header_at at h
  exact ⟨List.mem_of_find?_eq_some h, by simpa using List.find?_some h⟩

theorem header_at_of_mem {chain : List MemoryBlock} {a e : Nat} {b : MemoryBlock}
    (h : chain_ok a chain e) (hb : b ∈ chain) : header_at chain b.addr = some b := by
  induction chain generalizing a with
  | nil => cases hb
  | cons c next ih =>
    obtain ⟨hc, hn⟩ := h
    rcases List.mem_cons.1 hb with rfl | hb
    · simp [header_at]
    · have h1 := chain_ok_mem hn hb
      have hne : c.addr ≠ b.addr := by
        simp only [sizeof_MemoryBlock] at h1
        omega
      have := ih hn hb
      simp only [header_at] at this ⊢
      rw [List.find?_cons_of_neg _ (by simpa using hne)]
      exact this

theorem addr_unique {chain : List MemoryBlock} {a e : Nat} {b c : MemoryBlock}
    (h : chain_ok a chain e) (hb : b ∈ chain) (hc : c ∈ chain) (hbc : b.addr = c.addr) :
    b = c := by
  have h1 := header_at_of_mem h hb
  have h2 := header_at_of_mem h hc
  rw [hbc, h2] at h1
  exact (Option.some.inj h1).symm

/-- Distinct nodes of a tiled chain have disjoint spans. -/
theorem spans_disjoint {chain : List MemoryBlock} {a e : Nat} {b c : MemoryBlock}
    (h : chain_ok a chain e) (hb : b ∈ chain) (hc : c ∈ chain) (hbc : b ≠ c) :
    b.addr + sizeof_MemoryBlock + b.size ≤ c.addr ∨
      c.addr + sizeof_MemoryBlock + c.size ≤ b.addr := by
  induction chain generalizing a with
  | nil => cases hb
  | cons d next ih =>
    obtain ⟨hd, hn⟩ := h
    rcases List.mem_cons.1 hb with hb1 | hb1
    · rcases List.mem_cons.1 hc with hc1 | hc1
      · exact absurd (hb1.trans hc1.symm) hbc
      · left
        have := chain_ok_mem hn hc1
        rw [hb1]
        omega
    · rcases List.mem_cons.1 hc with hc1 | hc1
      · right
        have := chain_ok_mem hn hb1
        rw [hc1]
        omega
      · exact ih hn hb1 hc1

/-! ### Updates through a header pointer -/

theorem at_block_chain_ok {f : MemoryBlock → List MemoryBlock → List MemoryBlock}
    {chain : List MemoryBlock} {a e x : Nat} {b0 : MemoryBlock}
    (hx : header_at chain x = some b0)
    (hf : ∀ a next, chain_ok a (b0 :: next) e → chain_ok a (f b0 next) e)
    (h : chain_ok a chain e) : chain_ok a (at_block f chain x) e := by
  induction chain generalizing a with
  | nil => simp [header_at] at hx
  | cons b next ih =>
    by_cases hb : b.addr = x
    · have : b0 = b := by
        simp [header_at, hb] at hx
        exact hx.symm
      subst this
      simp only [at_block, hb, if_true]
      exact hf a next h
    · simp only [at_block, hb, if_false]
      have hx' : header_at next x = some b0 := by
        simp only [header_at] at hx ⊢
        rwa [List.find?_cons_of_neg _ (by simpa using hb)] at hx
      exact ⟨h.1, ih hx' h.2⟩

/-- A node that is not the target of the update and that `f` keeps stays in the chain. -/
theorem mem_at_block {f : MemoryBlock → List MemoryBlock → List MemoryBlock}
    {chain : List MemoryBlock} {x : Nat} {c : MemoryBlock}
    (hc : c ∈ chain) (hcx : c.addr ≠ x)
    (hf : ∀ b next, c ∈ next → c ∈ f b next) :
    c ∈ at_block f chain x := by
  induction chain with
  | nil => cases hc
  | cons b next ih =>
    by_cases hb : b.addr = x
    · simp only [at_block, hb, if_true]
      rcases List.mem_cons.1 hc with hc1 | hc1
      · rw [hc1] at hcx
        exact absurd hb hcx
      · exact hf b next hc1
    · simp only [at_block, hb, if_false]
      rcases List.mem_cons.1 hc with hc1 | hc1
      · rw [hc1]
        exact List.mem_cons_self _ _
      · exact List.mem_cons_of_mem _ (ih hc1)

/-- The node the update is applied to is the one `header_at` finds. -/
theorem at_block_target {f : MemoryBlock → List MemoryBlock → List MemoryBlock}
    {chain : List MemoryBlock} {x : Nat} {b0 : MemoryBlock} {R : MemoryBlock → Prop}
    (hx : header_at chain x = some b0)
    (hf : ∀ next, ∃ b1, b1 ∈ f b0 next ∧ R b1) :
    ∃ b1, b1 ∈ at_block f chain x ∧ R b1 := by
  induction chain with
  | nil => simp [header_at] at hx
  | cons b next ih =>
    by_cases hb : b.addr = x
    · have : b0 = b := by
        simp [header_at, hb] at hx
        exact hx.symm
      subst this
      simp only [at_block, hb, if_true]
      exact hf next
    · simp only [at_block, hb, if_false]
      have hx' : header_at next x = some b0 := by
        simp only [header_at] at hx ⊢
        rwa [List.find?_cons_of_neg _ (by simpa using hb)] at hx
      obtain ⟨b1, h1, h2⟩ := ih hx'
      exact ⟨b1, List.mem_cons_of_mem _ h1, h2⟩


/-! ### The searches -/

theorem find_first_fit_from_some {chain : List MemoryBlock} {n : Nat} {b : MemoryBlock}
    (h : find_first_fit_from chain n = some b) :
    ∃ pre post, chain = pre ++ b :: post ∧ b.is_free = true ∧ n ≤ b.size ∧
      ∀ x, x ∈ pre → ¬ (x.is_free = true ∧ n ≤ x.size) := by
  induction chain with
  | nil => simp [find_first_fit_from] at h
  | cons c next ih =>
    by_cases hc : c.is_free = true ∧ c.size ≥ n
    · simp only [find_first_fit_from, hc, and_self, if_true, Option.some.injEq] at h
      subst h
      exact ⟨[], next, rfl, hc.1, hc.2, by simp⟩
    · simp only [find_first_fit_from, hc, if_false] at h
      obtain ⟨pre, post, h1, h2, h3, h4⟩ := ih h
      refine ⟨c :: pre, post, by simp [h1], h2, h3, ?_⟩
      intro x hx
      rcases List.mem_cons.1 hx with rfl | hx
      · exact hc
      · exact h4 x hx

theorem find_first_fit_from_none {chain : List MemoryBlock} {n : Nat} :
    find_first_fit_from chain n = none ↔
      ∀ x, x ∈ chain → ¬ (x.is_free = true ∧ n ≤ x.size) := by
  induction chain with
  | nil => simp [find_first_fit_from]
  | cons c next ih =>
    by_cases hc : c.is_free = true ∧ c.size ≥ n
    · simp only [find_first_fit_from, hc, and_self, if_true]
      constructor
      · intro h; cases h
      · intro h; exact absurd hc (h c (List.mem_cons_self _ _))
    · rw [find_first_fit_from, if_neg hc, ih]
      constructor
      · intro h x hx
        rcases List.mem_cons.1 hx with rfl | hx
        · exact hc
        · exact h x hx
      · intro h x hx
        exact h x (List.mem_cons_of_mem _ hx)

theorem find_best_fit_from_spec (chain : List MemoryBlock) (best : Option MemoryBlock)
    (sm n : Nat) :
    (find_best_fit_from chain best sm n = best ∧
        ∀ x, x ∈ chain → x.is_free = true → n ≤ x.size → sm ≤ x.size) ∨
      ∃ pre b post, chain = pre ++ b :: post ∧ find_best_fit_from chain best sm n = some b ∧
        b.is_free = true ∧ n ≤ b.size ∧ b.size < sm ∧
        (∀ x, x ∈ pre → x.is_free = true → n ≤ x.size → b.size < x.size) ∧
        (∀ x, x ∈ post → x.is_free = true → n ≤ x.size → b.size ≤ x.size) := by
  induction chain generalizing best sm with
  | nil => left; simp [find_best_fit_from]
  | cons c next ih =>
    by_cases hc : c.is_free = true ∧ c.size ≥ n
    · by_cases hlt : c.size < sm
      · simp only [find_best_fit_from, hc, and_self, if_true, hlt]
        right
        rcases ih (some c) c.size with ⟨h1, h2⟩ | ⟨pre, b, post, h1, h2, h3, h4, h5, h6, h7⟩
        · exact ⟨[], c, next, rfl, h1, hc.1, hc.2, hlt, by simp, h2⟩
        · refine ⟨c :: pre, b, post, by simp [h1], h2, h3, h4, by omega, ?_, h7⟩
          intro x hx hf hn
          rcases List.mem_cons.1 hx with rfl | hx
          · exact h5
          · exact h6 x hx hf hn
      · simp only [find_best_fit_from, hc, and_self, if_true, hlt, if_false]
        rcases ih best sm with ⟨h1, h2⟩ | ⟨pre, b, post, h1, h2, h3, h4, h5, h6, h7⟩
        · left
          refine ⟨h1, ?_⟩
          intro x hx hf hn
          rcases List.mem_cons.1 hx with rfl | hx
          · omega
          · exact h2 x hx hf hn
        · right
          refine ⟨c :: pre, b, post, by simp [h1], h2, h3, h4, h5, ?_, h7⟩
          intro x hx hf hn
          rcases List.mem_cons.1 hx with rfl | hx
          · omega
          · exact h6 x hx hf hn
    · simp only [find_best_fit_from, hc, if_false]
      rcases ih best sm with ⟨h1, h2⟩ | ⟨pre, b, post, h1, h2, h3, h4, h5, h6, h7⟩
      · left
        refine ⟨h1, ?_⟩
        intro x hx hf hn
        rcases List.mem_cons.1 hx with rfl | hx
        · exact absurd ⟨hf, hn⟩ hc
        · exact h2 x hx hf hn
      · right
        refine ⟨c :: pre, b, post, by simp [h1], h2, h3, h4, h5, ?_, h7⟩
        intro x hx hf hn
        rcases List.mem_cons.1 hx with rfl | hx
        · exact absurd ⟨hf, hn⟩ hc
        · exact h6 x hx hf hn

/-- The block `mem_alloc` selects is a free node of the chain that is large enough. -/
theorem chosen_block_some {s : Allocator} {n : Nat} {b : MemoryBlock}
    (h : chosen_block s n = some b) :
    b ∈ s.first_block ∧ b.is_free = true ∧ n ≤ b.size := by
  unfold chosen_block at h
  split at h
  · obtain ⟨pre, post, h1, h2, h3, _⟩ := find_first_fit_from_some h
    exact ⟨by rw [h1]; simp, h2, h3⟩
  · unfold find_best_fit at h
    rcases find_best_fit_from_spec s.first_block none SIZE_MAX n with
      ⟨h1, _⟩ | ⟨pre, b', post, h1, h2, h3, h4, _, _, _⟩
    · rw [h1] at h; cases h
    · rw [h2] at h
      cases h
      exact ⟨by rw [h1]; simp, h3, h4⟩

/-- The search fails exactly when no free node is large enough, as long as no node
has the size `SIZE_MAX`. -/
theorem chosen_block_none {s : Allocator} {n : Nat}
    (hs : ∀ x, x ∈ s.first_block → x.size < SIZE_MAX) :
    chosen_block s n = none ↔
      ∀ x, x ∈ s.first_block → ¬ (x.is_free = true ∧ n ≤ x.size) := by
  unfold chosen_block
  split
  · exact find_first_fit_from_none
  · unfold find_best_fit
    rcases find_best_fit_from_spec s.first_block none SIZE_MAX n with
      ⟨h1, h2⟩ | ⟨pre, b', post, h1, h2, h3, h4, _, _, _⟩
    · rw [h1]
      refine ⟨fun _ x hx hfit => ?_, fun _ => rfl⟩
      have := h2 x hx hfit.1 hfit.2
      have := hs x hx
      omega
    · rw [h2]
      refine ⟨fun h => (by cases h), fun h => ?_⟩
      exact absurd ⟨h3, h4⟩ (h b' (by rw [h1]; simp))


/-! ### The stores of the operations keep the chain tiled -/

theorem split_node_chain_ok {n a e : Nat} {b : MemoryBlock} {next : List MemoryBlock}
    (hb : b.size > (n + sizeof_MemoryBlock + 8) % SIZE_MOD) (hn : n ≤ b.size)
    (he : e ≤ PTRDIFF_MAX) (h : chain_ok a (b :: next) e) :
    chain_ok a (split_node n b next) e := by
  obtain ⟨h1, h2⟩ := h
  have h3 := chain_ok_le h2
  simp only [sizeof_MemoryBlock, SIZE_MOD, PTRDIFF_MAX] at *
  have h4 : b.size > n + 24 + 8 := by omega
  refine ⟨h1, by simp only [sizeof_MemoryBlock]; omega, ?_⟩
  have h5 : a + sizeof_MemoryBlock + n + sizeof_MemoryBlock +
      (b.size + 2 * SIZE_MOD - n - sizeof_MemoryBlock) % SIZE_MOD = a + 24 + b.size := by
    simp only [sizeof_MemoryBlock, SIZE_MOD]
    omega
  show chain_ok (a + sizeof_MemoryBlock + n + sizeof_MemoryBlock +
      (b.size + 2 * SIZE_MOD - n - sizeof_MemoryBlock) % SIZE_MOD) next e
  rw [h5]
  exact h2

theorem absorb_next_chain_ok {a e : Nat} {b : MemoryBlock} {next : List MemoryBlock}
    (he : e ≤ PTRDIFF_MAX) (h : chain_ok a (b :: next) e) :
    chain_ok a (absorb_next b next) e := by
  cases next with
  | nil => exact h
  | cons n rest =>
    obtain ⟨h1, h2, h3⟩ := h
    have h4 := chain_ok_le h3
    refine ⟨h1, ?_⟩
    have h5 : a + sizeof_MemoryBlock +
        (b.size + (sizeof_MemoryBlock + n.size) % SIZE_MOD) % SIZE_MOD =
        a + sizeof_MemoryBlock + b.size + sizeof_MemoryBlock + n.size := by
      simp only [sizeof_MemoryBlock, SIZE_MOD, PTRDIFF_MAX] at *
      omega
    show chain_ok (a + sizeof_MemoryBlock +
        (b.size + (sizeof_MemoryBlock + n.size) % SIZE_MOD) % SIZE_MOD) rest e
    rw [h5]
    exact h3

theorem coalesce_from_chain_ok {a e : Nat} {cur : MemoryBlock} {rest : List MemoryBlock}
    (he : e ≤ PTRDIFF_MAX) (h : chain_ok a (cur :: rest) e) :
    chain_ok a (coalesce_from cur rest) e := by
  induction rest generalizing a cur with
  | nil => exact h
  | cons n rest ih =>
    by_cases hm : cur.is_free = true ∧ n.is_free = true
    · simp only [coalesce_from, hm, and_self, if_true]
      exact ih (absorb_next_chain_ok he h)
    · simp only [coalesce_from, hm, if_false]
      exact ⟨h.1, ih h.2⟩

theorem set_is_free_chain_ok {v : Bool} {chain : List MemoryBlock} {a e x : Nat}
    (h : chain_ok a chain e) : chain_ok a (set_is_free v chain x) e := by
  induction chain generalizing a with
  | nil => exact h
  | cons b next ih =>
    by_cases hb : b.addr = x
    · simp only [set_is_free, at_block, hb, if_true]
      exact ⟨hb ▸ h.1, h.2⟩
    · simp only [set_is_free, at_block, hb, if_false]
      exact ⟨h.1, ih h.2⟩

/-! ### Which nodes survive the stores -/

theorem mem_coalesce_from {cur c : MemoryBlock} {rest : List MemoryBlock}
    (hc : c ∈ cur :: rest) (hu : c.is_free = false) : c ∈ coalesce_from cur rest := by
  induction rest generalizing cur with
  | nil => exact hc
  | cons n rest ih =>
    by_cases hm : cur.is_free = true ∧ n.is_free = true
    · simp only [coalesce_from, hm, and_self, if_true]
      apply ih
      rcases List.mem_cons.1 hc with h1 | h1
      · rw [h1, hm.1] at hu; cases hu
      · rcases List.mem_cons.1 h1 with h2 | h2
        · rw [h2, hm.2] at hu; cases hu
        · exact List.mem_cons_of_mem _ h2
    · simp only [coalesce_from, hm, if_false]
      rcases List.mem_cons.1 hc with h1 | h1
      · rw [h1]; exact List.mem_cons_self _ _
      · exact List.mem_cons_of_mem _ (ih h1)

theorem mem_set_is_free {v : Bool} {chain : List MemoryBlock} {x : Nat} {c : MemoryBlock}
    (hc : c ∈ chain) (hcx : c.addr ≠ x) : c ∈ set_is_free v chain x :=
  mem_at_block hc hcx (fun _ _ h => List.mem_cons_of_mem _ h)

theorem set_is_free_target {v : Bool} {chain : List MemoryBlock} {x : Nat} {b0 : MemoryBlock}
    (hx : header_at chain x = some b0) :
    { b0 with is_free := v } ∈ set_is_free v chain x := by
  obtain ⟨b1, h1, h2⟩ := at_block_target (f := fun b next => { b with is_free := v } :: next)
    (R := fun b1 => b1 = { b0 with is_free := v }) hx
    (fun next => ⟨_, List.mem_cons_self _ _, rfl⟩)
  rw [← h2]
  exact h1

theorem mem_split {n : Nat} {chain : List MemoryBlock} {x : Nat} {c : MemoryBlock}
    (hc : c ∈ chain) (hcx : c.addr ≠ x) : c ∈ at_block (split_node n) chain x :=
  mem_at_block hc hcx
    (fun _ _ h => List.mem_cons_of_mem _ (List.mem_cons_of_mem _ h))

theorem split_target {n : Nat} {chain : List MemoryBlock} {x : Nat} {b0 : MemoryBlock}
    (hx : header_at chain x = some b0) :
    { b0 with size := n } ∈ at_block (split_node n) chain x := by
  obtain ⟨b1, h1, h2⟩ := at_block_target (f := split_node n)
    (R := fun b1 => b1 = { b0 with size := n }) hx
    (fun next => ⟨_, List.mem_cons_self _ _, rfl⟩)
  rw [← h2]
  exact h1

theorem mem_absorb {chain : List MemoryBlock} {x : Nat} {n c : MemoryBlock}
    (hn : next_block chain x = some n) (hfree : n.is_free = true)
    (hc : c ∈ chain) (hu : c.is_free = false) (hcx : c.addr ≠ x) :
    c ∈ at_block absorb_next chain x := by
  induction chain with
  | nil => cases hc
  | cons b next ih =>
    by_cases hb : b.addr = x
    · simp only [next_block, hb, if_true] at hn
      simp only [at_block, hb, if_true]
      cases next with
      | nil => cases hn
      | cons m rest =>
        simp only [List.head?_cons, Option.some.injEq] at hn
        subst hn
        rcases List.mem_cons.1 hc with h1 | h1
        · rw [h1] at hcx; exact absurd hb hcx
        · rcases List.mem_cons.1 h1 with h2 | h2
          · rw [h2, hfree] at hu; cases hu
          · exact List.mem_cons_of_mem _ h2
    · simp only [next_block, hb, if_false] at hn
      simp only [at_block, hb, if_false]
      rcases List.mem_cons.1 hc with h1 | h1
      · rw [h1]; exact List.mem_cons_self _ _
      · exact List.mem_cons_of_mem _ (ih hn h1)

theorem absorb_target {chain : List MemoryBlock} {x : Nat} {b0 n : MemoryBlock}
    (hx : header_at chain x = some b0) (hn : next_block chain x = some n) :
    { b0 with size := (b0.size + (sizeof_MemoryBlock + n.size) % SIZE_MOD) % SIZE_MOD } ∈
      at_block absorb_next chain x := by
  induction chain with
  | nil => simp [header_at] at hx
  | cons b next ih =>
    by_cases hb : b.addr = x
    · have : b0 = b := by
        simp [header_at, hb] at hx
        exact hx.symm
      subst this
      simp only [next_block, hb, if_true] at hn
      cases next with
      | nil => cases hn
      | cons m rest =>
        simp only [List.head?_cons, Option.some.injEq] at hn
        subst hn
        have e1 : at_block absorb_next (b0 :: m :: rest) x = absorb_next b0 (m :: rest) := by
          simp only [at_block, hb, if_true]
        rw [e1]
        exact List.mem_cons_self _ _
    · simp only [next_block, hb, if_false] at hn
      simp only [at_block, hb, if_false]
      have hx' : header_at next x = some b0 := by
        simp only [header_at] at hx ⊢
        rwa [List.find?_cons_of_neg _ (by simpa using hb)] at hx
      exact List.mem_cons_of_mem _ (ih hx' hn)

/-- In a tiled chain the successor of a node is a node of the chain right behind it. -/
theorem next_block_some {chain : List MemoryBlock} {a e x : Nat} {b0 n : MemoryBlock}
    (h : chain_ok a chain e) (hx : header_at chain x = some b0)
    (hn : next_block chain x = some n) :
    n ∈ chain ∧ n.addr = b0.addr + sizeof_MemoryBlock + b0.size := by
  induction chain generalizing a with
  | nil => simp [header_at] at hx
  | cons b next ih =>
    by_cases hb : b.addr = x
    · have : b0 = b := by
        simp [header_at, hb] at hx
        exact hx.symm
      subst this
      simp only [next_block, hb, if_true] at hn
      cases next with
      | nil => cases hn
      | cons m rest =>
        simp only [List.head?_cons, Option.some.injEq] at hn
        subst hn
        obtain ⟨h1, h2, _⟩ := h
        exact ⟨by simp, by rw [h2, h1]⟩
    · simp only [next_block, hb, if_false] at hn
      have hx' : header_at next x = some b0 := by
        simp only [header_at] at hx ⊢
        rwa [List.find?_cons_of_neg _ (by simpa using hb)] at hx
      obtain ⟨h1, h2⟩ := ih h.2 hx' hn
      exact ⟨List.mem_cons_of_mem _ h1, h2⟩


/-! ### `split_block` -/

theorem split_block_eq {s : Allocator} {x n : Nat} {b0 : MemoryBlock}
    (hx : header_at s.first_block x = some b0) :
    split_block s x n =
      if b0.size > (n + sizeof_MemoryBlock + 8) % SIZE_MOD then
        { s with
          memory_pool := s.memory_pool.map (store_header (x + sizeof_MemoryBlock + n))
          first_block := at_block (split_node n) s.first_block x }
      else s := by
  unfold split_block
  rw [hx]

theorem read_byte_store_header {s : Allocator} {a i : Nat} {chain : List MemoryBlock}
    (hi : i < a ∨ a + sizeof_MemoryBlock ≤ i) :
    read_byte { s with memory_pool := s.memory_pool.map (store_header a),
                       first_block := chain } i = read_byte s i := by
  unfold read_byte
  cases s.memory_pool with
  | none => rfl
  | some m =>
    simp only [Option.map_some', store_header]
    rw [if_neg]
    omega

theorem split_block_ok {s : Allocator} {x n : Nat} {b0 : MemoryBlock}
    (hwf : well_formed s) (hx : header_at s.first_block x = some b0) (hn : n ≤ b0.size) :
    well_formed (split_block s x n) ∧
      (split_block s x n).memory_pool_size = s.memory_pool_size ∧
      (split_block s x n).current_strategy = s.current_strategy ∧
      (∀ c, c ∈ s.first_block → c.addr ≠ x → c ∈ (split_block s x n).first_block) ∧
      (∃ b1, b1 ∈ (split_block s x n).first_block ∧ b1.addr = x ∧
        b1.is_free = b0.is_free ∧ n ≤ b1.size ∧ b1.size ≤ b0.size) ∧
      (∀ i, i < x + sizeof_MemoryBlock + n ∨ x + sizeof_MemoryBlock + b0.size ≤ i →
        read_byte (split_block s x n) i = read_byte s i) := by
  obtain ⟨hp, hsz, hmax, hok⟩ := hwf
  obtain ⟨hmem, hadr⟩ := header_at_some hx
  have hb0 := chain_ok_mem hok hmem
  rw [split_block_eq hx]
  by_cases hc : b0.size > (n + sizeof_MemoryBlock + 8) % SIZE_MOD
  · rw [if_pos hc]
    have hgt : b0.size > n + sizeof_MemoryBlock + 8 := by
      simp only [sizeof_MemoryBlock, SIZE_MOD, PTRDIFF_MAX] at *
      omega
    refine ⟨⟨?_, hsz, hmax, ?_⟩, rfl, rfl, ?_, ?_, ?_⟩
    · show (s.memory_pool.map _).isSome = true
      rw [Option.isSome_map']
      exact hp
    · exact at_block_chain_ok hx (fun a next h => split_node_chain_ok hc hn hmax h) hok
    · intro c hc1 hc2
      exact mem_split hc1 hc2
    · exact ⟨_, split_target hx, hadr, rfl, Nat.le_refl _, hn⟩
    · intro i hi
      apply read_byte_store_header
      simp only [sizeof_MemoryBlock] at *
      omega
  · rw [if_neg hc]
    refine ⟨⟨hp, hsz, hmax, hok⟩, rfl, rfl, fun c h _ => h, ⟨b0, hmem, hadr, rfl, hn, Nat.le_refl _⟩,
      fun _ _ => rfl⟩

/-! ### `mem_alloc` -/

theorem mem_alloc_fail {s : Allocator} {n : Nat}
    (h : n = 0 ∨ s.memory_pool.isNone = true ∨ chosen_block s n = none) :
    mem_alloc s n = (s, none) := by
  unfold mem_alloc
  by_cases h1 : n = 0 ∨ s.memory_pool.isNone = true
  · rw [if_pos h1]
  · rw [if_neg h1]
    have h2 : chosen_block s n = none := by
      rcases h with h | h | h
      · exact absurd (Or.inl h) h1
      · exact absurd (Or.inr h) h1
      · exact h
    rw [h2]

theorem mem_alloc_succ {s : Allocator} {n : Nat} {blk : MemoryBlock}
    (h0 : n ≠ 0) (hp : s.memory_pool.isSome = true) (hb : chosen_block s n = some blk) :
    mem_alloc s n =
      ({ split_block s blk.addr n with
          first_block := set_is_free false (split_block s blk.addr n).first_block blk.addr },
        some (get_data_pointer blk.addr)) := by
  unfold mem_alloc
  have h1 : ¬ (n = 0 ∨ s.memory_pool.isNone = true) := by
    intro h
    rcases h with h | h
    · exact h0 h
    · cases hm : s.memory_pool with
      | none => rw [hm] at hp; cases hp
      | some m => rw [hm] at h; cases h
  rw [if_neg h1, hb]

/-- The two outcomes of `mem_alloc`. -/
theorem mem_alloc_cases (s : Allocator) (n : Nat) :
    (mem_alloc s n = (s, none) ∧
        (n = 0 ∨ s.memory_pool.isNone = true ∨ chosen_block s n = none)) ∨
      ∃ blk, n ≠ 0 ∧ s.memory_pool.isSome = true ∧ chosen_block s n = some blk ∧
        mem_alloc s n =
          ({ split_block s blk.addr n with
              first_block := set_is_free false (split_block s blk.addr n).first_block blk.addr },
            some (get_data_pointer blk.addr)) := by
  by_cases h0 : n = 0
  · exact Or.inl ⟨mem_alloc_fail (Or.inl h0), Or.inl h0⟩
  · by_cases hm : s.memory_pool.isSome = true
    · rcases Option.eq_none_or_eq_some (chosen_block s n) with hb | ⟨blk, hb⟩
      · exact Or.inl ⟨mem_alloc_fail (Or.inr (Or.inr hb)), Or.inr (Or.inr hb)⟩
      · exact Or.inr ⟨blk, h0, hm, hb, mem_alloc_succ h0 hm hb⟩
    · have : s.memory_pool.isNone = true := by
        cases hq : s.memory_pool with
        | none => rfl
        | some m => rw [hq] at hm; exact absurd rfl hm
      exact Or.inl ⟨mem_alloc_fail (Or.inr (Or.inl this)), Or.inr (Or.inl this)⟩

theorem read_byte_first_block {s : Allocator} {chain : List MemoryBlock} {i : Nat} :
    read_byte { s with first_block := chain } i = read_byte s i := rfl

theorem mem_alloc_ok {s : Allocator} {n : Nat} (hwf : well_formed s) :
    well_formed (mem_alloc s n).1 ∧
      (mem_alloc s n).1.memory_pool_size = s.memory_pool_size ∧
      (mem_alloc s n).1.current_strategy = s.current_strategy ∧
      (∀ c, c ∈ s.first_block → c.is_free = false →
        c ∈ (mem_alloc s n).1.first_block ∧
        ∀ i, c.addr + sizeof_MemoryBlock ≤ i → i < c.addr + sizeof_MemoryBlock + c.size →
          read_byte (mem_alloc s n).1 i = read_byte s i) ∧
      (∀ q, (mem_alloc s n).2 = some q →
        ∃ blk, blk ∈ s.first_block ∧ blk.is_free = true ∧ n ≤ blk.size ∧
          q = get_data_pointer blk.addr ∧ in_use (mem_alloc s n).1.first_block q ∧
          ∀ i, i < q + n →
            read_byte (mem_alloc s n).1 i = read_byte s i) := by
  rcases mem_alloc_cases s n with ⟨h, _⟩ | ⟨blk, h0, hp, hb, h⟩
  · rw [h]
    refine ⟨hwf, rfl, rfl, fun c hc _ => ⟨hc, fun _ _ _ => rfl⟩, ?_⟩
    intro q hq
    cases hq
  · rw [h]
    obtain ⟨hmem, hfree, hsize⟩ := chosen_block_some hb
    have hx := header_at_of_mem hwf.2.2.2 hmem
    obtain ⟨hwf1, hsz1, hst1, hkeep, ⟨b1, hb1, hb1a, hb1f, hb1n, hb1s⟩, hrd⟩ :=
      split_block_ok (n := n) hwf hx hsize
    have hx1 := header_at_of_mem hwf1.2.2.2 hb1
    rw [hb1a] at hx1
    refine ⟨⟨hwf1.1, hwf1.2.1, hwf1.2.2.1, set_is_free_chain_ok hwf1.2.2.2⟩, hsz1, hst1, ?_, ?_⟩
    · intro c hc hu
      have hne : c ≠ blk := by
        intro e
        rw [e, hfree] at hu
        cases hu
      have hca : c.addr ≠ blk.addr := fun e => hne (addr_unique hwf.2.2.2 hc hmem e)
      refine ⟨mem_set_is_free (hkeep c hc hca) hca, ?_⟩
      intro i hi1 hi2
      rw [read_byte_first_block]
      apply hrd
      have := spans_disjoint hwf.2.2.2 hc hmem hne
      simp only [sizeof_MemoryBlock] at *
      omega
    · intro q hq
      cases hq
      refine ⟨blk, hmem, hfree, hsize, rfl, ⟨_, set_is_free_target hx1, ?_, rfl⟩, ?_⟩
      · show get_data_pointer b1.addr = get_data_pointer blk.addr
        rw [hb1a]
      · intro i hi
        rw [read_byte_first_block]
        apply hrd
        left
        simp only [get_data_pointer] at hi
        exact hi


/-! ### `mem_free` -/

/-- A live pointer leads back to its header. -/
theorem header_of_in_use {chain : List MemoryBlock} {a e p : Nat}
    (h : chain_ok a chain e) (hp : in_use chain p) :
    ∃ b, (get_block_header p).bind (header_at chain) = some b ∧ b ∈ chain ∧
      get_data_pointer b.addr = p ∧ b.is_free = false := by
  obtain ⟨b, hb, hbp, hbu⟩ := hp
  refine ⟨b, ?_, hb, hbp, hbu⟩
  have h1 : get_block_header p = some b.addr := by
    unfold get_block_header
    unfold get_data_pointer at hbp
    rw [if_pos (by omega)]
    congr 1
    omega
  rw [h1]
  exact header_at_of_mem h hb

theorem coalesce_blocks_ok {s : Allocator} (hwf : well_formed s) :
    well_formed (coalesce_blocks s) ∧
      (coalesce_blocks s).memory_pool = s.memory_pool ∧
      (coalesce_blocks s).memory_pool_size = s.memory_pool_size ∧
      (coalesce_blocks s).current_strategy = s.current_strategy ∧
      ∀ c, c ∈ s.first_block → c.is_free = false → c ∈ (coalesce_blocks s).first_block := by
  obtain ⟨hp, hsz, hmax, hok⟩ := hwf
  unfold coalesce_blocks
  cases hch : s.first_block with
  | nil =>
    refine ⟨⟨hp, hsz, hmax, hok⟩, rfl, rfl, rfl, ?_⟩
    intro c hc
    cases hc
  | cons cur next =>
    rw [hch] at hok
    refine ⟨⟨hp, hsz, hmax, coalesce_from_chain_ok hmax hok⟩, rfl, rfl, rfl, ?_⟩
    intro c hc hu
    exact mem_coalesce_from hc hu

theorem mem_free_ok {s : Allocator} {p : Nat} (hwf : well_formed s)
    (hp : in_use s.first_block p) :
    ∃ s1, mem_free s (some p) = some s1 ∧ well_formed s1 ∧
      s1.memory_pool = s.memory_pool ∧
      s1.memory_pool_size = s.memory_pool_size ∧
      s1.current_strategy = s.current_strategy ∧
      ∀ c, c ∈ s.first_block → c.is_free = false → get_data_pointer c.addr ≠ p →
        c ∈ s1.first_block := by
  obtain ⟨b, hlook, hb, hbp, hbu⟩ := header_of_in_use hwf.2.2.2 hp
  have hnone : ¬ (s.memory_pool.isNone = true) := by
    have := hwf.1
    cases hm : s.memory_pool with
    | none => rw [hm] at this; cases this
    | some m => simp
  have hwf1 : well_formed { s with first_block := set_is_free true s.first_block b.addr } :=
    ⟨hwf.1, hwf.2.1, hwf.2.2.1, set_is_free_chain_ok hwf.2.2.2⟩
  obtain ⟨h1, h2, h3, h4, h5⟩ := coalesce_blocks_ok hwf1
  refine ⟨coalesce_blocks { s with first_block := set_is_free true s.first_block b.addr },
    ?_, h1, h2, h3, h4, ?_⟩
  · unfold mem_free
    simp only
    rw [if_neg hnone, hlook]
  · intro c hc hu hne
    apply h5 c _ hu
    apply mem_set_is_free hc
    intro e
    apply hne
    rw [e]
    exact hbp

/-! ### `mem_realloc` -/

theorem read_byte_memcpy {s : Allocator} {dst src k j : Nat} :
    read_byte { s with memory_pool := s.memory_pool.map (memcpy dst src k) } j =
      if dst ≤ j ∧ j < dst + k then read_byte s (src + (j - dst)) else read_byte s j := by
  unfold read_byte
  cases s.memory_pool with
  | none => simp
  | some m => simp only [Option.map_some', memcpy]

theorem read_byte_of_pool_eq {s t : Allocator} (h : t.memory_pool = s.memory_pool) (j : Nat) :
    read_byte t j = read_byte s j := by
  unfold read_byte
  rw [h]

theorem realloc_move_ok {s : Allocator} {p n : Nat} {b : MemoryBlock}
    (hwf : well_formed s) (hb : b ∈ s.first_block)
    (hbp : get_data_pointer b.addr = p) (hbu : b.is_free = false) :
    ∃ r, realloc_move s p b.addr n = some r ∧ well_formed r.1 ∧
      r.1.memory_pool_size = s.memory_pool_size ∧
      r.1.current_strategy = s.current_strategy ∧
      (∀ c, c ∈ s.first_block → c.is_free = false → get_data_pointer c.addr ≠ p →
        c ∈ r.1.first_block) ∧
      (r.2 = none → r.1 = s) ∧
      ∀ q, r.2 = some q → in_use r.1.first_block q ∧
        ∀ i, i < b.size → read_byte r.1 (q + i) = read_byte s (p + i) := by
  obtain ⟨hwf1, hsz1, hst1, hkeep1, hnew1⟩ := mem_alloc_ok (n := n) hwf
  rcases mem_alloc_cases s n with ⟨h, _⟩ | ⟨blk, h0, hpool, hblk, h⟩
  · refine ⟨(s, none), ?_, hwf, rfl, rfl, fun c hc _ _ => hc, fun _ => rfl, ?_⟩
    · unfold realloc_move
      rw [h]
    · intro q hq
      cases hq
  · generalize hs1 : (mem_alloc s n).1 = s1 at hwf1 hsz1 hst1 hkeep1 hnew1
    have hres : mem_alloc s n = (s1, some (get_data_pointer blk.addr)) := by
      rw [← hs1, h]
    obtain ⟨blk', hblk'mem, hblk'free, hblk'size, hq, huse, hrd⟩ :=
      hnew1 (get_data_pointer blk.addr) (by rw [h])
    obtain ⟨hb1, hbrd⟩ := hkeep1 b hb hbu
    have hx1 := header_at_of_mem hwf1.2.2.2 hb1
    have hwf2 : well_formed
        { s1 with memory_pool :=
            s1.memory_pool.map (memcpy (get_data_pointer blk.addr) p b.size) } := by
      refine ⟨?_, hwf1.2.1, hwf1.2.2.1, hwf1.2.2.2⟩
      show (s1.memory_pool.map _).isSome = true
      rw [Option.isSome_map']
      exact hwf1.1
    obtain ⟨s3, hfree, hwf3, hpool3, hsz3, hst3, hkeep3⟩ :=
      mem_free_ok (p := p) hwf2 ⟨b, hb1, hbp, hbu⟩
    have hqp : get_data_pointer blk.addr ≠ p := by
      intro e
      obtain ⟨hm, hf, _⟩ := chosen_block_some hblk
      have : blk.addr = b.addr := by
        unfold get_data_pointer at e hbp
        omega
      have := addr_unique hwf.2.2.2 hm hb this
      rw [this, hbu] at hf
      cases hf
    refine ⟨(s3, some (get_data_pointer blk.addr)), ?_, hwf3, ?_, ?_, ?_, ?_, ?_⟩
    · unfold realloc_move
      rw [hres]
      simp only
      rw [hx1]
      simp only
      rw [hfree]
      rfl
    · rw [hsz3]; exact hsz1
    · rw [hst3]; exact hst1
    · intro c hc hu hne
      exact hkeep3 c (hkeep1 c hc hu).1 hu hne
    · intro e
      cases e
    · intro q hq'
      cases hq'
      constructor
      · obtain ⟨c, hc, hcq, hcu⟩ := huse
        exact ⟨c, hkeep3 c hc hcu (by rw [hcq]; exact hqp), hcq, hcu⟩
      · intro i hi
        rw [read_byte_of_pool_eq hpool3, read_byte_memcpy, if_pos (by omega)]
        have : p + (get_data_pointer blk.addr + i - get_data_pointer blk.addr) = p + i := by
          omega
        rw [this]
        apply hbrd
        · unfold get_data_pointer at hbp
          omega
        · unfold get_data_pointer at hbp
          omega


theorem mem_realloc_ok {s : Allocator} {p n : Nat} (hwf : well_formed s)
    (hp : in_use s.first_block p) :
    ∃ r, mem_realloc s (some p) n = some r ∧ well_formed r.1 ∧
      r.1.memory_pool_size = s.memory_pool_size ∧
      r.1.current_strategy = s.current_strategy ∧
      (∀ c, c ∈ s.first_block → c.is_free = false → get_data_pointer c.addr ≠ p →
        c ∈ r.1.first_block) ∧
      (n = 0 → r.2 = none) ∧
      (n ≠ 0 → r.2 = none → r.1 = s) ∧
      ∀ q, r.2 = some q → in_use r.1.first_block q ∧
        ∀ b, b ∈ s.first_block → get_data_pointer b.addr = p →
          ∀ i, i < min b.size n → read_byte r.1 (q + i) = read_byte s (p + i) := by
  obtain ⟨b, hlook, hb, hbp, hbu⟩ := header_of_in_use hwf.2.2.2 hp
  have hx := header_at_of_mem hwf.2.2.2 hb
  have hsame : ∀ b', b' ∈ s.first_block → get_data_pointer b'.addr = p → b' = b := by
    intro b' hb' hb'p
    apply addr_unique hwf.2.2.2 hb' hb
    unfold get_data_pointer at hb'p hbp
    omega
  by_cases h0 : n = 0
  · obtain ⟨s1, hfree, hwf1, _, hsz1, hst1, hkeep1⟩ := mem_free_ok hwf hp
    refine ⟨(s1, none), ?_, hwf1, hsz1, hst1, hkeep1, fun _ => rfl, fun h => absurd h0 h, ?_⟩
    · unfold mem_realloc
      simp only
      rw [if_pos h0, hfree]
      rfl
    · intro q hq
      cases hq
  · have hmove : ∃ r, realloc_move s p b.addr n = some r ∧ well_formed r.1 ∧
        r.1.memory_pool_size = s.memory_pool_size ∧
        r.1.current_strategy = s.current_strategy ∧
        (∀ c, c ∈ s.first_block → c.is_free = false → get_data_pointer c.addr ≠ p →
          c ∈ r.1.first_block) ∧
        (n = 0 → r.2 = none) ∧
        (n ≠ 0 → r.2 = none → r.1 = s) ∧
        ∀ q, r.2 = some q → in_use r.1.first_block q ∧
          ∀ b, b ∈ s.first_block → get_data_pointer b.addr = p →
            ∀ i, i < min b.size n → read_byte r.1 (q + i) = read_byte s (p + i) := by
      obtain ⟨r, h1, h2, h3, h4, h5, h6, h7⟩ := realloc_move_ok (n := n) hwf hb hbp hbu
      refine ⟨r, h1, h2, h3, h4, h5, fun h => absurd h h0, fun _ => h6, ?_⟩
      intro q hq
      refine ⟨(h7 q hq).1, ?_⟩
      intro b' hb' hb'p i hi
      rw [hsame b' hb' hb'p] at hi
      exact (h7 q hq).2 i (by omega)
    by_cases hge : b.size ≥ n
    · obtain ⟨hwf1, hsz1, hst1, hkeep1, ⟨b1, hb1, hb1a, hb1f, _, _⟩, hrd⟩ :=
        split_block_ok (n := n) hwf hx hge
      refine ⟨(split_block s b.addr n, some p), ?_, hwf1, hsz1, hst1, ?_,
        fun h => absurd h h0, ?_, ?_⟩
      · unfold mem_realloc
        simp only
        rw [if_neg h0, hlook]
        simp only
        rw [if_pos hge]
      · intro c hc _ hne
        apply hkeep1 c hc
        intro e
        apply hne
        rw [e]
        exact hbp
      · intro _ h
        cases h
      · intro q hq
        cases hq
        refine ⟨⟨b1, hb1, by rw [hb1a]; exact hbp, by rw [hb1f]; exact hbu⟩, ?_⟩
        intro b' hb' hb'p i hi
        apply hrd
        left
        unfold get_data_pointer at hbp
        omega
    · rcases Option.eq_none_or_eq_some (next_block s.first_block b.addr) with hnx | ⟨nx, hnx⟩
      · obtain ⟨r, h1, hrest⟩ := hmove
        refine ⟨r, ?_, hrest⟩
        unfold mem_realloc
        simp only
        rw [if_neg h0, hlook]
        simp only
        rw [if_neg hge, hnx]
        exact h1
      · by_cases hgrow : nx.is_free = true ∧
            (b.size + sizeof_MemoryBlock + nx.size) % SIZE_MOD ≥ n
        · have hwf1 : well_formed
              { s with first_block := at_block absorb_next s.first_block b.addr } :=
            ⟨hwf.1, hwf.2.1, hwf.2.2.1,
              at_block_chain_ok hx (fun a next h => absorb_next_chain_ok hwf.2.2.1 h)
                hwf.2.2.2⟩
          have hmem1 := absorb_target hx hnx
          have hx1 := header_at_of_mem hwf1.2.2.2 hmem1
          have hsize : n ≤ (b.size + (sizeof_MemoryBlock + nx.size) % SIZE_MOD) % SIZE_MOD := by
            have := hgrow.2
            simp only [sizeof_MemoryBlock, SIZE_MOD] at *
            omega
          obtain ⟨hwf2, hsz2, hst2, hkeep2, ⟨b1, hb1, hb1a, hb1f, _, _⟩, hrd⟩ :=
            split_block_ok (n := n) hwf1 hx1 hsize
          refine ⟨(split_block
              { s with first_block := at_block absorb_next s.first_block b.addr } b.addr n,
              some p), ?_, hwf2, hsz2, hst2, ?_, fun h => absurd h h0, ?_, ?_⟩
          · unfold mem_realloc
            simp only
            rw [if_neg h0, hlook]
            simp only
            rw [if_neg hge, hnx]
            simp only
            rw [if_pos hgrow]
          · intro c hc hu hne
            have hca : c.addr ≠ b.addr := by
              intro e
              apply hne
              rw [e]
              exact hbp
            exact hkeep2 c (mem_absorb hnx hgrow.1 hc hu hca) hca
          · intro _ h
            cases h
          · intro q hq
            cases hq
            refine ⟨⟨b1, hb1, by rw [hb1a]; exact hbp, by rw [hb1f]; exact hbu⟩, ?_⟩
            intro b' hb' hb'p i hi
            have e1 := hrd (p + i) (Or.inl (by
              unfold get_data_pointer at hbp
              show p + i < b.addr + sizeof_MemoryBlock + n
              omega))
            rw [e1]
            rfl
        · obtain ⟨r, h1, hrest⟩ := hmove
          refine ⟨r, ?_, hrest⟩
          unfold mem_realloc
          simp only
          rw [if_neg h0, hlook]
          simp only
          rw [if_neg hge, hnx]
          simp only
          rw [if_neg hgrow]
          exact h1


/-! ### `mem_calloc` and `init_allocator` -/

theorem mem_calloc_chain (s : Allocator) (k m : Nat) :
    (mem_calloc s k m).2 = (mem_alloc s ((k * m) % SIZE_MOD)).2 ∧
      (mem_calloc s k m).1.first_block = (mem_alloc s ((k * m) % SIZE_MOD)).1.first_block ∧
      (mem_calloc s k m).1.memory_pool_size =
        (mem_alloc s ((k * m) % SIZE_MOD)).1.memory_pool_size ∧
      (mem_calloc s k m).1.current_strategy =
        (mem_alloc s ((k * m) % SIZE_MOD)).1.current_strategy ∧
      (mem_calloc s k m).1.memory_pool.isSome =
        (mem_alloc s ((k * m) % SIZE_MOD)).1.memory_pool.isSome := by
  unfold mem_calloc
  rcases h : mem_alloc s ((k * m) % SIZE_MOD) with ⟨s1, r⟩
  cases r with
  | none => exact ⟨rfl, rfl, rfl, rfl, rfl⟩
  | some ptr =>
    refine ⟨rfl, rfl, rfl, rfl, ?_⟩
    show (s1.memory_pool.map _).isSome = s1.memory_pool.isSome
    rw [Option.isSome_map']

theorem init_allocator_ok (s0 : Allocator) {capacity : Nat} (strategy : AllocationStrategy)
    (h1 : sizeof_MemoryBlock ≤ capacity) (h2 : capacity ≤ PTRDIFF_MAX) :
    well_formed (init_allocator s0 capacity strategy) := by
  refine ⟨rfl, h1, h2, ?_⟩
  show (0 : Nat) = 0 ∧
    0 + sizeof_MemoryBlock + (capacity + SIZE_MOD - sizeof_MemoryBlock) % SIZE_MOD = capacity
  refine ⟨rfl, ?_⟩
  simp only [sizeof_MemoryBlock, SIZE_MOD, PTRDIFF_MAX] at *
  omega

/-! ### The invariant of the client -/

theorem fresh_ok (s0 : Allocator) {capacity : Nat} (strategy : AllocationStrategy)
    (h1 : sizeof_MemoryBlock ≤ capacity) (h2 : capacity ≤ PTRDIFF_MAX) :
    client_ok (fresh s0 capacity strategy) :=
  ⟨init_allocator_ok s0 strategy h1 h2, fun p hp => by cases hp⟩

theorem alloc_client_ok {s : Allocator} {live : List Nat} {n : Nat}
    (hwf : well_formed s) (hl : ∀ p, p ∈ live → in_use s.first_block p) :
    ∀ p, p ∈ live ++ (mem_alloc s n).2.toList → in_use (mem_alloc s n).1.first_block p := by
  obtain ⟨_, _, _, hkeep, hnew⟩ := mem_alloc_ok (n := n) hwf
  intro p hp
  rcases List.mem_append.1 hp with h | h
  · obtain ⟨c, hc, hcp, hcu⟩ := hl p h
    exact ⟨c, (hkeep c hc hcu).1, hcp, hcu⟩
  · have : (mem_alloc s n).2 = some p := by
      cases hr : (mem_alloc s n).2 with
      | none => rw [hr] at h; cases h
      | some q =>
        rw [hr] at h
        simp only [Option.toList, List.mem_singleton] at h
        rw [h]
    obtain ⟨_, _, _, _, _, huse, _⟩ := hnew p this
    exact huse

theorem step_ok {c c1 : Client} {op : Op} (h : client_ok c) (hs : step c op = some c1) :
    client_ok c1 ∧ c1.heap.memory_pool_size = c.heap.memory_pool_size ∧
      c1.heap.current_strategy = c.heap.current_strategy := by
  obtain ⟨hwf, hl⟩ := h
  cases op with
  | alloc n =>
    simp only [step, Option.some.injEq] at hs
    subst hs
    obtain ⟨h1, h2, h3, _, _⟩ := mem_alloc_ok (n := n) hwf
    exact ⟨⟨h1, alloc_client_ok hwf hl⟩, h2, h3⟩
  | calloc k m =>
    simp only [step, Option.some.injEq] at hs
    subst hs
    obtain ⟨e1, e2, e3, e4, e5⟩ := mem_calloc_chain c.heap k m
    obtain ⟨h1, h2, h3, _, _⟩ := mem_alloc_ok (n := (k * m) % SIZE_MOD) hwf
    refine ⟨⟨⟨?_, ?_, ?_, ?_⟩, ?_⟩, ?_, ?_⟩
    · show (mem_calloc c.heap k m).1.memory_pool.isSome = true
      rw [e5]; exact h1.1
    · show sizeof_MemoryBlock ≤ (mem_calloc c.heap k m).1.memory_pool_size
      rw [e3]; exact h1.2.1
    · show (mem_calloc c.heap k m).1.memory_pool_size ≤ PTRDIFF_MAX
      rw [e3]; exact h1.2.2.1
    · show chain_ok 0 (mem_calloc c.heap k m).1.first_block
        (mem_calloc c.heap k m).1.memory_pool_size
      rw [e2, e3]; exact h1.2.2.2
    · show ∀ p, p ∈ c.live ++ (mem_calloc c.heap k m).2.toList →
        in_use (mem_calloc c.heap k m).1.first_block p
      rw [e1, e2]
      exact alloc_client_ok hwf hl
    · show (mem_calloc c.heap k m).1.memory_pool_size = c.heap.memory_pool_size
      rw [e3]; exact h2
    · show (mem_calloc c.heap k m).1.current_strategy = c.heap.current_strategy
      rw [e4]; exact h3
  | realloc ptr n =>
    cases ptr with
    | none =>
      simp only [step, Option.some.injEq] at hs
      subst hs
      obtain ⟨h1, h2, h3, _, _⟩ := mem_alloc_ok (n := n) hwf
      exact ⟨⟨h1, alloc_client_ok hwf hl⟩, h2, h3⟩
    | some p =>
      simp only [step] at hs
      by_cases hp : p ∈ c.live
      · rw [if_pos hp] at hs
        obtain ⟨r, hr, h1, h2, h3, hkeep, hz, hnone, hsome⟩ :=
          mem_realloc_ok (n := n) hwf (hl p hp)
        rw [hr] at hs
        simp only [Option.map_some', Option.some.injEq] at hs
        subst hs
        refine ⟨⟨h1, ?_⟩, h2, h3⟩
        have hfilter : ∀ q, q ∈ c.live.filter (fun q => decide (q ≠ p)) →
            in_use r.1.first_block q := by
          intro q hq
          obtain ⟨hq1, hq2⟩ := List.mem_filter.1 hq
          obtain ⟨b, hb, hbq, hbu⟩ := hl q hq1
          have hq3 : q ≠ p := by simpa using hq2
          exact ⟨b, hkeep b hb hbu (by rw [hbq]; exact hq3), hbq, hbu⟩
        intro q hq
        show in_use r.1.first_block q
        change q ∈ live_after_realloc c.live p n r.2 at hq
        unfold live_after_realloc at hq
        by_cases h0 : n = 0
        · rw [if_pos h0] at hq
          exact hfilter q hq
        · rw [if_neg h0] at hq
          cases hr2 : r.2 with
          | none =>
            rw [hr2] at hq
            rw [hnone h0 hr2]
            exact hl q hq
          | some q1 =>
            rw [hr2] at hq
            rcases List.mem_append.1 hq with h | h
            · exact hfilter q h
            · simp only [List.mem_singleton] at h
              rw [h]
              exact (hsome q1 hr2).1
      · rw [if_neg hp] at hs
        cases hs
  | free ptr =>
    cases ptr with
    | none =>
      simp only [step, Option.some.injEq] at hs
      subst hs
      exact ⟨⟨hwf, hl⟩, rfl, rfl⟩
    | some p =>
      simp only [step] at hs
      by_cases hp : p ∈ c.live
      · rw [if_pos hp] at hs
        obtain ⟨s1, hf, h1, _, h2, h3, hkeep⟩ := mem_free_ok hwf (hl p hp)
        rw [hf] at hs
        simp only [Option.map_some', Option.some.injEq] at hs
        subst hs
        refine ⟨⟨h1, ?_⟩, h2, h3⟩
        intro q hq
        obtain ⟨hq1, hq2⟩ := List.mem_filter.1 hq
        obtain ⟨b, hb, hbq, hbu⟩ := hl q hq1
        have hq3 : q ≠ p := by simpa using hq2
        exact ⟨b, hkeep b hb hbu (by rw [hbq]; exact hq3), hbq, hbu⟩
      · rw [if_neg hp] at hs
        cases hs
  | store p i v =>
    simp only [step] at hs
    cases hlook : (get_block_header p).bind (header_at c.heap.first_block) with
    | none => rw [hlook] at hs; cases hs
    | some b =>
      rw [hlook] at hs
      simp only at hs
      by_cases hc : p ∈ c.live ∧ i < b.size
      · rw [if_pos hc] at hs
        simp only [Option.some.injEq] at hs
        subst hs
        refine ⟨⟨⟨?_, hwf.2.1, hwf.2.2.1, hwf.2.2.2⟩, hl⟩, rfl, rfl⟩
        show (c.heap.memory_pool.map _).isSome = true
        rw [Option.isSome_map']
        exact hwf.1
      · rw [if_neg hc] at hs
        cases hs

theorem run_ok {ops : List Op} {c c1 : Client} (h : client_ok c) (hr : run c ops = some c1) :
    client_ok c1 ∧ c1.heap.memory_pool_size = c.heap.memory_pool_size ∧
      c1.heap.current_strategy = c.heap.current_strategy := by
  induction ops generalizing c with
  | nil =>
    simp only [run, Option.some.injEq] at hr
    subst hr
    exact ⟨h, rfl, rfl⟩
  | cons op ops ih =>
    simp only [run] at hr
    cases hs : step c op with
    | none => rw [hs] at hr; cases hr
    | some c2 =>
      rw [hs] at hr
      simp only [Option.some_bind] at hr
      obtain ⟨h1, h2, h3⟩ := step_ok h hs
      obtain ⟨h4, h5, h6⟩ := ih h1 hr
      exact ⟨h4, h5.trans h2, h6.trans h3⟩

/-- A release or a resize of a live pointer always has a result: the client never
runs into undefined behaviour on a pointer it owns. -/
theorem step_defined {c : Client} {p : Nat} (h : client_ok c) (hp : p ∈ c.live) (n : Nat) :
    (∃ c1, step c (Op.free (some p)) = some c1) ∧
      ∃ c1, step c (Op.realloc (some p) n) = some c1 := by
  obtain ⟨hwf, hl⟩ := h
  obtain ⟨s1, hf, _⟩ := mem_free_ok hwf (hl p hp)
  obtain ⟨r, hr, _⟩ := mem_realloc_ok (n := n) hwf (hl p hp)
  constructor
  · refine ⟨{ heap := s1, live := c.live.filter (fun q => decide (q ≠ p)) }, ?_⟩
    simp only [step]
    rw [if_pos hp, hf]
    rfl
  · refine ⟨{ heap := r.1, live := live_after_realloc c.live p n r.2 }, ?_⟩
    simp only [step]
    rw [if_pos hp, hr]
    rfl

/-- From an initialised pool every run reaches a client that satisfies the invariant,
over a pool of the initial capacity. -/
theorem reachable_ok {s0 : Allocator} {capacity : Nat} {strategy : AllocationStrategy}
    {ops : List Op} {c : Client}
    (h1 : sizeof_MemoryBlock ≤ capacity) (h2 : capacity ≤ PTRDIFF_MAX)
    (hr : run (fresh s0 capacity strategy) ops = some c) :
    client_ok c ∧ c.heap.memory_pool_size = capacity ∧ c.heap.current_strategy = strategy := by
  obtain ⟨h3, h4, h5⟩ := run_ok (fresh_ok s0 strategy h1 h2) hr
  exact ⟨h3, h4, h5⟩



/-! ### Accounting -/

theorem accounting {chain : List MemoryBlock} {a e f u : Nat} (h : chain_ok a chain e)
    (hb : f + u + (e - a) < SIZE_MOD) :
    get_free_memory_from chain f + get_used_memory_from chain u +
      sizeof_MemoryBlock * chain.length + a = f + u + e := by
  induction chain generalizing a f u with
  | nil =>
    have : a = e := h
    simp only [get_free_memory_from, get_used_memory_from, List.length_nil]
    omega
  | cons b next ih =>
    obtain ⟨h1, h2⟩ := h
    have h3 := chain_ok_le h2
    cases hf : b.is_free with
    | true =>
      have e1 : (f + b.size) % SIZE_MOD = f + b.size := by
        apply Nat.mod_eq_of_lt
        simp only [sizeof_MemoryBlock] at h3
        omega
      simp only [get_free_memory_from, get_used_memory_from, hf, if_true, Bool.not_true,
        Bool.false_eq_true, if_false, List.length_cons, e1]
      have := ih (f := f + b.size) (u := u) h2 (by
        simp only [sizeof_MemoryBlock] at h3 ⊢
        omega)
      simp only [sizeof_MemoryBlock] at this h3 ⊢
      omega
    | false =>
      have e1 : (u + b.size) % SIZE_MOD = u + b.size := by
        apply Nat.mod_eq_of_lt
        simp only [sizeof_MemoryBlock] at h3
        omega
      simp only [get_free_memory_from, get_used_memory_from, hf, Bool.false_eq_true, if_false,
        Bool.not_false, if_true, List.length_cons, e1]
      have := ih (f := f) (u := u + b.size) h2 (by
        simp only [sizeof_MemoryBlock] at h3 ⊢
        omega)
      simp only [sizeof_MemoryBlock] at this h3 ⊢
      omega

/-! ### The chain by index -/

theorem chain_ok_succ {chain : List MemoryBlock} {a e i : Nat} {b n : MemoryBlock}
    (h : chain_ok a chain e) (hb : chain[i]? = some b) (hn : chain[i + 1]? = some n) :
    n.addr = b.addr + sizeof_MemoryBlock + b.size := by
  induction chain generalizing a i with
  | nil => simp at hb
  | cons c next ih =>
    obtain ⟨h1, h2⟩ := h
    cases i with
    | zero =>
      simp only [List.getElem?_cons_zero, Option.some.injEq] at hb
      subst hb
      cases next with
      | nil => simp at hn
      | cons m rest =>
        simp only [zero_add, List.getElem?_cons_succ, List.getElem?_cons_zero,
          Option.some.injEq] at hn
        subst hn
        rw [h2.1, h1]
    | succ k =>
      simp only [List.getElem?_cons_succ] at hb hn
      exact ih h2 hb hn

theorem chain_ok_before {chain : List MemoryBlock} {a e i j : Nat} {b d : MemoryBlock}
    (h : chain_ok a chain e) (hij : i < j) (hb : chain[i]? = some b)
    (hd : chain[j]? = some d) : b.addr + sizeof_MemoryBlock + b.size ≤ d.addr := by
  induction chain generalizing a i j with
  | nil => simp at hb
  | cons c next ih =>
    obtain ⟨h1, h2⟩ := h
    cases j with
    | zero => omega
    | succ j1 =>
      simp only [List.getElem?_cons_succ] at hd
      cases i with
      | zero =>
        simp only [List.getElem?_cons_zero, Option.some.injEq] at hb
        subst hb
        have := chain_ok_mem h2 (List.getElem?_mem hd)
        omega
      | succ i1 =>
        simp only [List.getElem?_cons_succ] at hb
        exact ih h2 (by omega) hb hd

theorem chain_ok_last {chain : List MemoryBlock} {a e : Nat} {b : MemoryBlock}
    (h : chain_ok a chain e) (hb : chain.getLast? = some b) :
    b.addr + sizeof_MemoryBlock + b.size = e := by
  induction chain generalizing a with
  | nil => simp at hb
  | cons c next ih =>
    obtain ⟨h1, h2⟩ := h
    cases next with
    | nil =>
      simp only [List.getLast?_singleton, Option.some.injEq] at hb
      subst hb
      have : a + sizeof_MemoryBlock + c.size = e := h2
      omega
    | cons m rest =>
      rw [List.getLast?_cons_cons] at hb
      exact ih h2 hb

theorem chosen_block_none_of_no_fit {s : Allocator} {n : Nat}
    (h : ∀ x, x ∈ s.first_block → ¬ (x.is_free = true ∧ n ≤ x.size)) :
    chosen_block s n = none := by
  unfold chosen_block
  split
  · exact find_first_fit_from_none.2 h
  · unfold find_best_fit
    rcases find_best_fit_from_spec s.first_block none SIZE_MAX n with
      ⟨h1, _⟩ | ⟨pre, b, post, h1, _, h3, h4, _, _, _⟩
    · exact h1
    · exact absurd ⟨h3, h4⟩ (h b (by rw [h1]; simp))

/-- In a well-formed allocator no node is as large as `SIZE_MAX`. -/
theorem size_lt_SIZE_MAX {s : Allocator} (hwf : well_formed s) {x : MemoryBlock}
    (hx : x ∈ s.first_block) : x.size < SIZE_MAX := by
  have h1 := chain_ok_mem hwf.2.2.2 hx
  have h2 := hwf.2.2.1
  simp only [SIZE_MAX, PTRDIFF_MAX, sizeof_MemoryBlock] at *
  omega

theorem reachable_client_ok {c : Client} (h : reachable c) : client_ok c := by
  obtain ⟨s0, capacity, strategy, ops, h1, h2, hr⟩ := h
  exact (reachable_ok h1 h2 hr).1


/-! ### `get_fragmentation` -/

theorem free_block_count_from_eq (chain : List MemoryBlock) (k : Nat) :
    free_block_count_from chain k = k + (chain.filter (fun b => b.is_free)).length := by
  induction chain generalizing k with
  | nil => simp [free_block_count_from]
  | cons b next ih =>
    cases hb : b.is_free with
    | true =>
      simp only [free_block_count_from, hb, if_true, List.filter_cons_of_pos, List.length_cons, ih]
      omega
    | false =>
      simp only [free_block_count_from, hb, Bool.false_eq_true, if_false, ih]
      rw [List.filter_cons_of_neg (by simp [hb])]

theorem total_blocks_from_eq (chain : List MemoryBlock) (q : ℚ) :
    total_blocks_from chain q = q + (chain.length : ℚ) := by
  induction chain generalizing q with
  | nil => simp [total_blocks_from]
  | cons b next ih =>
    simp only [total_blocks_from, ih, List.length_cons, Nat.cast_add, Nat.cast_one]
    ring

/-! ### The chain around a node -/

theorem chain_ok_append_lt {pre post : List MemoryBlock} {b : MemoryBlock} {a e : Nat}
    (h : chain_ok a (pre ++ b :: post) e) : ∀ x, x ∈ pre → x.addr < b.addr := by
  induction pre generalizing a with
  | nil => intro x hx; cases hx
  | cons c pre ih =>
    obtain ⟨h1, h2⟩ := h
    intro x hx
    rcases List.mem_cons.1 hx with hx1 | hx1
    · have := chain_ok_mem h2 (List.mem_append_right pre (List.mem_cons_self b post))
      rw [hx1]
      simp only [sizeof_MemoryBlock] at this
      omega
    · exact ih h2 x hx1

theorem at_block_append {f : MemoryBlock → List MemoryBlock → List MemoryBlock}
    {pre post : List MemoryBlock} {b : MemoryBlock} {a : Nat}
    (hpre : ∀ x, x ∈ pre → x.addr ≠ a) (hb : b.addr = a) :
    at_block f (pre ++ b :: post) a = pre ++ f b post := by
  induction pre with
  | nil => simp only [List.nil_append, at_block, hb, if_true]
  | cons c pre ih =>
    have hc : c.addr ≠ a := hpre c (List.mem_cons_self _ _)
    have e1 : at_block f (c :: (pre ++ b :: post)) a = c :: at_block f (pre ++ b :: post) a := by
      simp only [at_block, hc, if_false]
    rw [List.cons_append, e1, ih (fun x hx => hpre x (List.mem_cons_of_mem _ hx))]
    rfl

/-- The nodes of an updated chain are nodes of the old chain or come from the update. -/
theorem at_block_sub {f : MemoryBlock → List MemoryBlock → List MemoryBlock}
    {chain : List MemoryBlock} {a : Nat} {x : MemoryBlock} {P : MemoryBlock → Prop}
    (hf : ∀ b next, b ∈ chain → b.addr = a → ∀ y, y ∈ f b next → y ∈ next ∨ P y)
    (hx : x ∈ at_block f chain a) : x ∈ chain ∨ P x := by
  induction chain with
  | nil => cases hx
  | cons b next ih =>
    by_cases hb : b.addr = a
    · simp only [at_block, hb, if_true] at hx
      rcases hf b next (List.mem_cons_self _ _) hb x hx with h | h
      · exact Or.inl (List.mem_cons_of_mem _ h)
      · exact Or.inr h
    · simp only [at_block, hb, if_false] at hx
      rcases List.mem_cons.1 hx with h | h
      · rw [h]; exact Or.inl (List.mem_cons_self _ _)
      · rcases ih (fun b1 next1 h1 h2 y hy => hf b1 next1 (List.mem_cons_of_mem _ h1) h2 y hy)
          h with h3 | h3
        · exact Or.inl (List.mem_cons_of_mem _ h3)
        · exact Or.inr h3

theorem mem_of_mem_coalesce_from {cur x : MemoryBlock} {rest : List MemoryBlock}
    (hx : x ∈ coalesce_from cur rest) : x.is_free = true ∨ x ∈ cur :: rest := by
  induction rest generalizing cur with
  | nil => exact Or.inr hx
  | cons n rest ih =>
    by_cases hm : cur.is_free = true ∧ n.is_free = true
    · simp only [coalesce_from, hm, and_self, if_true] at hx
      rcases ih hx with h | h
      · exact Or.inl h
      · rcases List.mem_cons.1 h with h1 | h1
        · left
          rw [h1]
        · exact Or.inr (List.mem_cons_of_mem _ (List.mem_cons_of_mem _ h1))
    · simp only [coalesce_from, hm, if_false] at hx
      rcases List.mem_cons.1 hx with h | h
      · rw [h]; exact Or.inr (List.mem_cons_self _ _)
      · rcases ih h with h1 | h1
        · exact Or.inl h1
        · exact Or.inr (List.mem_cons_of_mem _ h1)

/-- The nodes of the chain after `split_block`: old nodes, the node that was split, or
a free remainder of more than 8 bytes. -/
theorem split_block_sub {s : Allocator} {a n : Nat} {b0 x : MemoryBlock}
    (hwf : well_formed s) (ha : header_at s.first_block a = some b0) (hn : n ≤ b0.size)
    (hx : x ∈ (split_block s a n).first_block) :
    x ∈ s.first_block ∨ x.addr = a ∨ (x.is_free = true ∧ 8 < x.size) := by
  rw [split_block_eq ha] at hx
  by_cases hc : b0.size > (n + sizeof_MemoryBlock + 8) % SIZE_MOD
  · rw [if_pos hc] at hx
    apply at_block_sub (P := fun y => y.addr = a ∨ (y.is_free = true ∧ 8 < y.size)) _ hx
    intro b next hb hba y hy
    have hbb : b = b0 := by
      have h1 := header_at_of_mem hwf.2.2.2 hb
      rw [hba, ha] at h1
      exact (Option.some.inj h1).symm
    subst hbb
    have hsz := chain_ok_mem hwf.2.2.2 hb
    have hmax := hwf.2.2.1
    simp only [split_node, List.mem_cons] at hy
    rcases hy with h | h | h
    · right; left
      rw [h]
      exact hba
    · right; right
      rw [h]
      refine ⟨rfl, ?_⟩
      show 8 < (b.size + 2 * SIZE_MOD - n - sizeof_MemoryBlock) % SIZE_MOD
      simp only [sizeof_MemoryBlock, SIZE_MOD, PTRDIFF_MAX] at *
      omega
    · exact Or.inl h
  · rw [if_neg hc] at hx
    exact Or.inl hx

/-! ### The paths of `mem_realloc` -/

theorem mem_realloc_eq {s : Allocator} {p n : Nat} {b : MemoryBlock}
    (hlook : (get_block_header p).bind (header_at s.first_block) = some b) (h0 : n ≠ 0) :
    mem_realloc s (some p) n =
      if b.size ≥ n then some (split_block s b.addr n, some p)
      else
        match next_block s.first_block b.addr with
        | some nx =>
          if nx.is_free ∧ (b.size + sizeof_MemoryBlock + nx.size) % SIZE_MOD ≥ n then
            some (split_block
              { s with first_block := at_block absorb_next s.first_block b.addr }
              b.addr n, some p)
          else realloc_move s p b.addr n
        | none => realloc_move s p b.addr n := by
  unfold mem_realloc
  simp only
  rw [if_neg h0, hlook]

/-! ### Where the blocks in use come from -/

theorem set_is_free_sub {v : Bool} {chain : List MemoryBlock} {a : Nat} {x : MemoryBlock}
    (hx : x ∈ set_is_free v chain a) : x ∈ chain ∨ (x.addr = a ∧ x.is_free = v) :=
  at_block_sub (P := fun y => y.addr = a ∧ y.is_free = v)
    (fun b next _ hba y hy => by
      rcases List.mem_cons.1 hy with h2 | h2
      · right
        rw [h2]
        exact ⟨hba, rfl⟩
      · exact Or.inl h2) hx

/-- A block in use after `mem_alloc` was in use before, or is the block returned. -/
theorem mem_alloc_used {s : Allocator} {n : Nat} {x : MemoryBlock} (hwf : well_formed s)
    (hx : x ∈ (mem_alloc s n).1.first_block) (hu : x.is_free = false) :
    x ∈ s.first_block ∨ (mem_alloc s n).2 = some (get_data_pointer x.addr) := by
  rcases mem_alloc_cases s n with ⟨h, _⟩ | ⟨blk, h0, hp, hb, h⟩
  · rw [h] at hx
    exact Or.inl hx
  · rw [h] at hx ⊢
    obtain ⟨hmem, hfree, hsize⟩ := chosen_block_some hb
    have hh := header_at_of_mem hwf.2.2.2 hmem
    rcases set_is_free_sub hx with h1 | ⟨h1, _⟩
    · rcases split_block_sub hwf hh hsize h1 with h2 | h2 | h2
      · exact Or.inl h2
      · right
        show some (get_data_pointer blk.addr) = some (get_data_pointer x.addr)
        rw [h2]
      · rw [h2.1] at hu
        cases hu
    · right
      show some (get_data_pointer blk.addr) = some (get_data_pointer x.addr)
      rw [h1]

theorem get_block_header_some {p a : Nat} (h : get_block_header p = some a) :
    get_data_pointer a = p := by
  unfold get_block_header at h
  by_cases hp : sizeof_MemoryBlock ≤ p
  · rw [if_pos hp] at h
    unfold get_data_pointer
    have := Option.some.inj h
    omega
  · rw [if_neg hp] at h
    cases h

/-- The header a pointer leads to is at the pointer minus the header size. -/
theorem lookup_some {chain : List MemoryBlock} {p : Nat} {b : MemoryBlock}
    (h : (get_block_header p).bind (header_at chain) = some b) :
    b ∈ chain ∧ get_data_pointer b.addr = p := by
  cases ha : get_block_header p with
  | none => rw [ha] at h; cases h
  | some a =>
    rw [ha] at h
    obtain ⟨h1, h2⟩ := header_at_some h
    exact ⟨h1, by rw [h2]; exact get_block_header_some ha⟩

theorem mem_free_eq {s : Allocator} {p : Nat} {b : MemoryBlock}
    (hpool : s.memory_pool.isSome = true)
    (hlook : (get_block_header p).bind (header_at s.first_block) = some b) :
    mem_free s (some p) =
      some (coalesce_blocks { s with first_block := set_is_free true s.first_block b.addr }) := by
  have hnone : ¬ (s.memory_pool.isNone = true) := by
    cases hm : s.memory_pool with
    | none => rw [hm] at hpool; cases hpool
    | some m => simp
  unfold mem_free
  simp only
  rw [if_neg hnone, hlook]

theorem mem_free_some {s s1 : Allocator} {p : Nat} (hpool : s.memory_pool.isSome = true)
    (h : mem_free s (some p) = some s1) :
    ∃ b, (get_block_header p).bind (header_at s.first_block) = some b := by
  rcases Option.eq_none_or_eq_some ((get_block_header p).bind (header_at s.first_block)) with
    h1 | ⟨b, h1⟩
  · have hnone : ¬ (s.memory_pool.isNone = true) := by
      cases hm : s.memory_pool with
      | none => rw [hm] at hpool; cases hpool
      | some m => simp
    unfold mem_free at h
    simp only at h
    rw [if_neg hnone, h1] at h
    cases h
  · exact ⟨b, h1⟩

theorem coalesce_blocks_sub {s : Allocator} {x : MemoryBlock}
    (hx : x ∈ (coalesce_blocks s).first_block) : x.is_free = true ∨ x ∈ s.first_block := by
  unfold coalesce_blocks at hx
  cases hch : s.first_block with
  | nil =>
    rw [hch] at hx
    simp only at hx
    rw [hch] at hx
    cases hx
  | cons cur next =>
    rw [hch] at hx
    exact mem_of_mem_coalesce_from hx

/-- A block in use after `mem_free(p)` was in use before and is not the block of `p`. -/
theorem mem_free_used {s s1 : Allocator} {p : Nat} {x : MemoryBlock} (hwf : well_formed s)
    (h : mem_free s (some p) = some s1) (hx : x ∈ s1.first_block) (hu : x.is_free = false) :
    x ∈ s.first_block ∧ get_data_pointer x.addr ≠ p := by
  obtain ⟨b, hlook⟩ := mem_free_some hwf.1 h
  obtain ⟨hb, hbp⟩ := lookup_some hlook
  rw [mem_free_eq hwf.1 hlook] at h
  have h1 := Option.some.inj h
  rw [← h1] at hx
  rcases coalesce_blocks_sub hx with h2 | h2
  · rw [h2] at hu; cases hu
  · have h3 : x ∈ set_is_free true s.first_block b.addr := h2
    have hxa : x.addr ≠ b.addr := by
      intro e
      have hok1 : chain_ok 0 (set_is_free true s.first_block b.addr) s.memory_pool_size :=
        set_is_free_chain_ok hwf.2.2.2
      have ht := set_is_free_target (v := true) (header_at_of_mem hwf.2.2.2 hb)
      have := addr_unique hok1 h3 ht e
      rw [this] at hu
      cases hu
    rcases set_is_free_sub h3 with h4 | ⟨h4, _⟩
    · refine ⟨h4, ?_⟩
      intro e
      apply hxa
      unfold get_data_pointer at e hbp
      omega
    · exact absurd h4 hxa

/-- Coalescing a chain of free blocks leaves one block. -/
theorem coalesce_from_all_free {cur : MemoryBlock} {rest : List MemoryBlock}
    (h : ∀ x, x ∈ cur :: rest → x.is_free = true) :
    ∃ sz, coalesce_from cur rest = [{ cur with size := sz }] := by
  induction rest generalizing cur with
  | nil => exact ⟨cur.size, rfl⟩
  | cons n rest ih =>
    have h1 : cur.is_free = true ∧ n.is_free = true :=
      ⟨h cur (List.mem_cons_self _ _), h n (List.mem_cons_of_mem _ (List.mem_cons_self _ _))⟩
    have e : coalesce_from cur (n :: rest) = coalesce_from { cur with
        size := (cur.size + (sizeof_MemoryBlock + n.size) % SIZE_MOD) % SIZE_MOD } rest := by
      simp only [coalesce_from, h1, and_self, if_true]
    rw [e]
    have hall : ∀ x, x ∈ ({ cur with
        size := (cur.size + (sizeof_MemoryBlock + n.size) % SIZE_MOD) % SIZE_MOD } :
        MemoryBlock) :: rest → x.is_free = true := by
      intro x hx
      rcases List.mem_cons.1 hx with h2 | h2
      · rw [h2]; exact h1.1
      · exact h x (List.mem_cons_of_mem _ (List.mem_cons_of_mem _ h2))
    obtain ⟨sz, hsz⟩ := ih hall
    exact ⟨sz, hsz⟩

theorem realloc_move_used {s : Allocator} {p n : Nat} {b x : MemoryBlock}
    {r : Allocator × Option Nat}
    (hwf : well_formed s) (hb : b ∈ s.first_block) (hbu : b.is_free = false)
    (hr : realloc_move s p b.addr n = some r)
    (hx : x ∈ r.1.first_block) (hu : x.is_free = false) :
    r.2 = some (get_data_pointer x.addr) ∨
      (x ∈ s.first_block ∧ (get_data_pointer x.addr = p → r.2 = none)) := by
  obtain ⟨hwf1, _, _, hkeep1, _⟩ := mem_alloc_ok (n := n) hwf
  rcases mem_alloc_cases s n with ⟨h, _⟩ | ⟨blk, h0, hpool, hblk, h⟩
  · unfold realloc_move at hr
    rw [h] at hr
    have e := Option.some.inj hr
    rw [← e] at hx ⊢
    exact Or.inr ⟨hx, fun _ => rfl⟩
  · have hused := mem_alloc_used (n := n) (x := x) hwf
    generalize hs1 : (mem_alloc s n).1 = s1 at hwf1 hkeep1 hused
    have hres : mem_alloc s n = (s1, some (get_data_pointer blk.addr)) := by
      rw [← hs1, h]
    have hb1 := (hkeep1 b hb hbu).1
    have hx1 := header_at_of_mem hwf1.2.2.2 hb1
    have hwf2 : well_formed
        { s1 with memory_pool :=
            s1.memory_pool.map (memcpy (get_data_pointer blk.addr) p b.size) } := by
      refine ⟨?_, hwf1.2.1, hwf1.2.2.1, hwf1.2.2.2⟩
      show (s1.memory_pool.map _).isSome = true
      rw [Option.isSome_map']
      exact hwf1.1
    unfold realloc_move at hr
    rw [hres] at hr
    simp only at hr
    rw [hx1] at hr
    simp only at hr
    rcases Option.eq_none_or_eq_some
        (mem_free { s1 with memory_pool :=
          s1.memory_pool.map (memcpy (get_data_pointer blk.addr) p b.size) } (some p)) with
      hf | ⟨s3, hf⟩
    · rw [hf] at hr
      cases hr
    · rw [hf] at hr
      have e := Option.some.inj hr
      rw [← e] at hx ⊢
      obtain ⟨h2, h3⟩ := mem_free_used hwf2 hf hx hu
      rcases hused h2 hu with h4 | h4
      · exact Or.inr ⟨h4, fun e1 => absurd e1 h3⟩
      · left
        rw [hres] at h4
        exact h4

/-- A block in use after `mem_realloc(p, n)` is the block returned, or was in use
before; the block of `p` itself stays only when the call fails. -/
theorem mem_realloc_used {s : Allocator} {p n : Nat} {x : MemoryBlock}
    {r : Allocator × Option Nat}
    (hwf : well_formed s) (hp : in_use s.first_block p)
    (hr : mem_realloc s (some p) n = some r)
    (hx : x ∈ r.1.first_block) (hu : x.is_free = false) :
    (n ≠ 0 ∧ r.2 = some (get_data_pointer x.addr)) ∨
      (x ∈ s.first_block ∧ (get_data_pointer x.addr = p → n ≠ 0 ∧ r.2 = none)) := by
  obtain ⟨b, hlook, hb, hbp, hbu⟩ := header_of_in_use hwf.2.2.2 hp
  have hh := header_at_of_mem hwf.2.2.2 hb
  by_cases h0 : n = 0
  · unfold mem_realloc at hr
    simp only at hr
    rw [if_pos h0] at hr
    rcases Option.eq_none_or_eq_some (mem_free s (some p)) with hf | ⟨s1, hf⟩
    · rw [hf] at hr; cases hr
    · rw [hf] at hr
      have e := Option.some.inj hr
      rw [← e] at hx
      obtain ⟨h1, h2⟩ := mem_free_used hwf hf hx hu
      exact Or.inr ⟨h1, fun e1 => absurd e1 h2⟩
  · rw [mem_realloc_eq hlook h0] at hr
    have hmove : realloc_move s p b.addr n = some r →
        (n ≠ 0 ∧ r.2 = some (get_data_pointer x.addr)) ∨
          (x ∈ s.first_block ∧ (get_data_pointer x.addr = p → n ≠ 0 ∧ r.2 = none)) := by
      intro hm
      rcases realloc_move_used hwf hb hbu hm hx hu with h1 | ⟨h1, h2⟩
      · exact Or.inl ⟨h0, h1⟩
      · exact Or.inr ⟨h1, fun e => ⟨h0, h2 e⟩⟩
    have hsame : ∀ (t : Allocator), r = (t, some p) →
        (x ∈ s.first_block ∨ x.addr = b.addr) →
        (n ≠ 0 ∧ r.2 = some (get_data_pointer x.addr)) ∨
          (x ∈ s.first_block ∧ (get_data_pointer x.addr = p → n ≠ 0 ∧ r.2 = none)) := by
      intro t ht hor
      by_cases hxp : get_data_pointer x.addr = p
      · left
        rw [ht, hxp]
        exact ⟨h0, rfl⟩
      · rcases hor with h1 | h1
        · exact Or.inr ⟨h1, fun e => absurd e hxp⟩
        · exact absurd (by rw [h1]; exact hbp) hxp
    by_cases hge : b.size ≥ n
    · rw [if_pos hge] at hr
      have e := (Option.some.inj hr).symm
      rw [e] at hx
      apply hsame _ e
      rcases split_block_sub hwf hh hge hx with h1 | h1 | h1
      · exact Or.inl h1
      · exact Or.inr h1
      · rw [h1.1] at hu; cases hu
    · rw [if_neg hge] at hr
      rcases Option.eq_none_or_eq_some (next_block s.first_block b.addr) with hnx | ⟨nx, hnx⟩
      · rw [hnx] at hr
        exact hmove hr
      · rw [hnx] at hr
        simp only at hr
        by_cases hgrow : nx.is_free = true ∧
            (b.size + sizeof_MemoryBlock + nx.size) % SIZE_MOD ≥ n
        · rw [if_pos hgrow] at hr
          have e := (Option.some.inj hr).symm
          rw [e] at hx
          apply hsame _ e
          have hwf1 : well_formed
              { s with first_block := at_block absorb_next s.first_block b.addr } :=
            ⟨hwf.1, hwf.2.1, hwf.2.2.1,
              at_block_chain_ok hh (fun a next h => absorb_next_chain_ok hwf.2.2.1 h)
                hwf.2.2.2⟩
          have hmem1 := absorb_target hh hnx
          have hx1 := header_at_of_mem hwf1.2.2.2 hmem1
          have hsize : n ≤ (b.size + (sizeof_MemoryBlock + nx.size) % SIZE_MOD) % SIZE_MOD := by
            have := hgrow.2
            simp only [sizeof_MemoryBlock, SIZE_MOD] at *
            omega
          rcases split_block_sub hwf1 hx1 hsize hx with h1 | h1 | h1
          · have h2 : x ∈ at_block absorb_next s.first_block b.addr := h1
            rcases at_block_sub (P := fun y => y.addr = b.addr)
              (fun b1 next _ hba y hy => by
                cases next with
                | nil =>
                  right
                  simp only [absorb_next, List.mem_singleton] at hy
                  rw [hy]
                  exact hba
                | cons m rest =>
                  simp only [absorb_next, List.mem_cons] at hy
                  rcases hy with h3 | h3
                  · right
                    rw [h3]
                    exact hba
                  · exact Or.inl (List.mem_cons_of_mem _ h3)) h2 with h4 | h4
            · exact Or.inl h4
            · exact Or.inr h4
          · exact Or.inr h1
          · rw [h1.1] at hu; cases hu
        · rw [if_neg hgrow] at hr
          exact hmove hr

/-! ### Blocks in use and live pointers -/

theorem mem_alloc_none {s : Allocator} {n : Nat} (h : (mem_alloc s n).2 = none) :
    mem_alloc s n = (s, none) := by
  rcases mem_alloc_cases s n with ⟨h1, _⟩ | ⟨blk, _, _, _, h1⟩
  · exact h1
  · rw [h1] at h
    cases h

theorem append_toList_nil {live : List Nat} {r : Option Nat}
    (h : live ++ r.toList = []) : live = [] ∧ r = none := by
  cases r with
  | none => exact ⟨by simpa using h, rfl⟩
  | some q => simp [Option.toList] at h

theorem alloc_used_live {s : Allocator} {live : List Nat} {n : Nat} (hwf : well_formed s)
    (hu : ∀ x, x ∈ s.first_block → x.is_free = false → get_data_pointer x.addr ∈ live) :
    ∀ x, x ∈ (mem_alloc s n).1.first_block → x.is_free = false →
      get_data_pointer x.addr ∈ live ++ (mem_alloc s n).2.toList := by
  intro x hx hxu
  rcases mem_alloc_used hwf hx hxu with h | h
  · exact List.mem_append_left _ (hu x h hxu)
  · rw [h]
    simp [Option.toList]

theorem step_used_live {c c1 : Client} {op : Op} (h : client_ok c) (hu : used_are_live c)
    (hs : step c op = some c1) : used_are_live c1 := by
  obtain ⟨hwf, hl⟩ := h
  cases op with
  | alloc n =>
    simp only [step, Option.some.injEq] at hs
    subst hs
    exact alloc_used_live hwf hu
  | calloc k m =>
    simp only [step, Option.some.injEq] at hs
    subst hs
    obtain ⟨e1, e2, _, _, _⟩ := mem_calloc_chain c.heap k m
    show ∀ x, x ∈ (mem_calloc c.heap k m).1.first_block → x.is_free = false →
      get_data_pointer x.addr ∈ c.live ++ (mem_calloc c.heap k m).2.toList
    rw [e1, e2]
    exact alloc_used_live hwf hu
  | realloc ptr n =>
    cases ptr with
    | none =>
      simp only [step, Option.some.injEq] at hs
      subst hs
      exact alloc_used_live hwf hu
    | some p =>
      simp only [step] at hs
      by_cases hp : p ∈ c.live
      · rw [if_pos hp] at hs
        rcases Option.eq_none_or_eq_some (mem_realloc c.heap (some p) n) with hr | ⟨r, hr⟩
        · rw [hr] at hs; cases hs
        · rw [hr] at hs
          simp only [Option.map_some', Option.some.injEq] at hs
          subst hs
          intro x hx hxu
          show get_data_pointer x.addr ∈ live_after_realloc c.live p n r.2
          have hx1 : x ∈ r.1.first_block := hx
          unfold live_after_realloc
          rcases mem_realloc_used hwf (hl p hp) hr hx1 hxu with ⟨h0, h1⟩ | ⟨h1, h2⟩
          · rw [if_neg h0, h1]
            simp
          · have hin := hu x h1 hxu
            by_cases hxp : get_data_pointer x.addr = p
            · obtain ⟨h0, h3⟩ := h2 hxp
              rw [if_neg h0, h3]
              exact hin
            · have hf : get_data_pointer x.addr ∈
                  c.live.filter (fun q => decide (q ≠ p)) :=
                List.mem_filter.2 ⟨hin, by simpa using hxp⟩
              by_cases h0 : n = 0
              · rw [if_pos h0]
                exact hf
              · rw [if_neg h0]
                cases r.2 with
                | none => exact hin
                | some q => exact List.mem_append_left _ hf
      · rw [if_neg hp] at hs
        cases hs
  | free ptr =>
    cases ptr with
    | none =>
      simp only [step, Option.some.injEq] at hs
      subst hs
      exact hu
    | some p =>
      simp only [step] at hs
      by_cases hp : p ∈ c.live
      · rw [if_pos hp] at hs
        rcases Option.eq_none_or_eq_some (mem_free c.heap (some p)) with hf | ⟨s1, hf⟩
        · rw [hf] at hs; cases hs
        · rw [hf] at hs
          simp only [Option.map_some', Option.some.injEq] at hs
          subst hs
          intro x hx hxu
          obtain ⟨h1, h2⟩ := mem_free_used hwf hf hx hxu
          exact List.mem_filter.2 ⟨hu x h1 hxu, by simpa using h2⟩
      · rw [if_neg hp] at hs
        cases hs
  | store p i v =>
    simp only [step] at hs
    cases hlook : (get_block_header p).bind (header_at c.heap.first_block) with
    | none => rw [hlook] at hs; cases hs
    | some b =>
      rw [hlook] at hs
      simp only at hs
      by_cases hc : p ∈ c.live ∧ i < b.size
      · rw [if_pos hc] at hs
        simp only [Option.some.injEq] at hs
        subst hs
        exact hu
      · rw [if_neg hc] at hs
        cases hs

/-- After the release of the last live pointer the chain is one free block. -/
theorem free_last {s s1 : Allocator} {p : Nat} (hwf : well_formed s)
    (hf : mem_free s (some p) = some s1)
    (hall : ∀ x, x ∈ s1.first_block → x.is_free = true) :
    ∃ sz, s1.first_block = [{ addr := 0, size := sz, is_free := true }] := by
  obtain ⟨b, hlook⟩ := mem_free_some hwf.1 hf
  rw [mem_free_eq hwf.1 hlook] at hf
  have e := Option.some.inj hf
  have hok1 : chain_ok 0 (set_is_free true s.first_block b.addr) s.memory_pool_size :=
    set_is_free_chain_ok hwf.2.2.2
  have hwf1 : well_formed { s with first_block := set_is_free true s.first_block b.addr } :=
    ⟨hwf.1, hwf.2.1, hwf.2.2.1, hok1⟩
  have hkeep := (coalesce_blocks_ok hwf1).2.2.2.2
  rw [e] at hkeep
  have hfree : ∀ x, x ∈ set_is_free true s.first_block b.addr → x.is_free = true := by
    intro x hx
    cases hxf : x.is_free with
    | true => rfl
    | false =>
      have := hall x (hkeep x hx hxf)
      rw [hxf] at this
      cases this
  rw [← e]
  unfold coalesce_blocks
  cases hch : set_is_free true s.first_block b.addr with
  | nil =>
    rw [hch] at hok1
    have h0 : 0 = s.memory_pool_size := hok1
    have := hwf.2.1
    simp only [sizeof_MemoryBlock] at this
    omega
  | cons cur rest =>
    rw [hch] at hok1 hfree
    obtain ⟨sz, hsz⟩ := coalesce_from_all_free hfree
    refine ⟨sz, ?_⟩
    show coalesce_from cur rest = _
    rw [hsz]
    have ha : cur.addr = 0 := hok1.1
    have hfr : cur.is_free = true := hfree cur (List.mem_cons_self _ _)
    rw [← ha, ← hfr]

theorem step_single {c c1 : Client} {op : Op} (h : client_ok c)
    (hone : c.live = [] →
      ∃ sz, c.heap.first_block = [{ addr := 0, size := sz, is_free := true }])
    (hs : step c op = some c1) (hu1 : used_are_live c1) (hl1 : c1.live = []) :
    ∃ sz, c1.heap.first_block = [{ addr := 0, size := sz, is_free := true }] := by
  obtain ⟨hwf, hl⟩ := h
  have hall : ∀ x, x ∈ c1.heap.first_block → x.is_free = true := by
    intro x hx
    cases hxf : x.is_free with
    | true => rfl
    | false =>
      have := hu1 x hx hxf
      rw [hl1] at this
      cases this
  cases op with
  | alloc n =>
    simp only [step, Option.some.injEq] at hs
    subst hs
    obtain ⟨h1, h2⟩ := append_toList_nil hl1
    show ∃ sz, (mem_alloc c.heap n).1.first_block = _
    rw [mem_alloc_none h2]
    exact hone h1
  | calloc k m =>
    simp only [step, Option.some.injEq] at hs
    subst hs
    obtain ⟨e1, e2, _, _, _⟩ := mem_calloc_chain c.heap k m
    obtain ⟨h1, h2⟩ := append_toList_nil hl1
    show ∃ sz, (mem_calloc c.heap k m).1.first_block = _
    rw [e2, mem_alloc_none (by rw [← e1]; exact h2)]
    exact hone h1
  | realloc ptr n =>
    cases ptr with
    | none =>
      simp only [step, Option.some.injEq] at hs
      subst hs
      obtain ⟨h1, h2⟩ := append_toList_nil hl1
      show ∃ sz, (mem_alloc c.heap n).1.first_block = _
      rw [mem_alloc_none h2]
      exact hone h1
    | some p =>
      simp only [step] at hs
      by_cases hp : p ∈ c.live
      · rw [if_pos hp] at hs
        rcases Option.eq_none_or_eq_some (mem_realloc c.heap (some p) n) with hr | ⟨r, hr⟩
        · rw [hr] at hs; cases hs
        · rw [hr] at hs
          simp only [Option.map_some', Option.some.injEq] at hs
          subst hs
          have hl2 : live_after_realloc c.live p n r.2 = [] := hl1
          unfold live_after_realloc at hl2
          by_cases h0 : n = 0
          · unfold mem_realloc at hr
            simp only at hr
            rw [if_pos h0] at hr
            rcases Option.eq_none_or_eq_some (mem_free c.heap (some p)) with hf | ⟨s1, hf⟩
            · rw [hf] at hr; cases hr
            · rw [hf] at hr
              have e := Option.some.inj hr
              have hall1 : ∀ x, x ∈ s1.first_block → x.is_free = true := by
                intro x hx
                apply hall
                show x ∈ r.1.first_block
                rw [← e]
                exact hx
              obtain ⟨sz, hsz⟩ := free_last hwf hf hall1
              refine ⟨sz, ?_⟩
              show r.1.first_block = _
              rw [← e]
              exact hsz
          · rw [if_neg h0] at hl2
            cases hr2 : r.2 with
            | none =>
              rw [hr2] at hl2
              simp only at hl2
              rw [hl2] at hp
              cases hp
            | some q =>
              rw [hr2] at hl2
              simp at hl2
      · rw [if_neg hp] at hs
        cases hs
  | free ptr =>
    cases ptr with
    | none =>
      simp only [step, Option.some.injEq] at hs
      subst hs
      exact hone hl1
    | some p =>
      simp only [step] at hs
      by_cases hp : p ∈ c.live
      · rw [if_pos hp] at hs
        rcases Option.eq_none_or_eq_some (mem_free c.heap (some p)) with hf | ⟨s1, hf⟩
        · rw [hf] at hs; cases hs
        · rw [hf] at hs
          simp only [Option.map_some', Option.some.injEq] at hs
          subst hs
          exact free_last hwf hf hall
      · rw [if_neg hp] at hs
        cases hs
  | store p i v =>
    simp only [step] at hs
    cases hlook : (get_block_header p).bind (header_at c.heap.first_block) with
    | none => rw [hlook] at hs; cases hs
    | some b =>
      rw [hlook] at hs
      simp only at hs
      by_cases hc : p ∈ c.live ∧ i < b.size
      · rw [if_pos hc] at hs
        simp only [Option.some.injEq] at hs
        subst hs
        exact hone hl1
      · rw [if_neg hc] at hs
        cases hs

theorem run_single {ops : List Op} {c c1 : Client} (h : client_ok c) (hu : used_are_live c)
    (hone : c.live = [] →
      ∃ sz, c.heap.first_block = [{ addr := 0, size := sz, is_free := true }])
    (hr : run c ops = some c1) :
    used_are_live c1 ∧ (c1.live = [] →
      ∃ sz, c1.heap.first_block = [{ addr := 0, size := sz, is_free := true }]) := by
  induction ops generalizing c with
  | nil =>
    simp only [run, Option.some.injEq] at hr
    subst hr
    exact ⟨hu, hone⟩
  | cons op ops ih =>
    simp only [run] at hr
    cases hs : step c op with
    | none => rw [hs] at hr; cases hr
    | some c2 =>
      rw [hs] at hr
      simp only [Option.some_bind] at hr
      have hu2 := step_used_live h hu hs
      exact ih (step_ok h hs).1 hu2 (fun hl2 => step_single h hone hs hu2 hl2) hr

/-! ### `mem_free` on any header of the chain -/

theorem mem_free_any {s : Allocator} {p : Nat} {b : MemoryBlock} (hwf : well_formed s)
    (hlook : (get_block_header p).bind (header_at s.first_block) = some b) :
    ∃ s1, mem_free s (some p) = some s1 ∧ well_formed s1 ∧
      s1.memory_pool = s.memory_pool ∧
      (∀ x, x ∈ s.first_block → x.is_free = false → x.addr ≠ b.addr → x ∈ s1.first_block) ∧
      (∀ x, x ∈ s1.first_block → x.is_free = false → x ∈ s.first_block ∧ x.addr ≠ b.addr) ∧
      ∀ x, x ∈ s1.first_block → x.addr = b.addr → x.is_free = true := by
  have hwf1 : well_formed { s with first_block := set_is_free true s.first_block b.addr } :=
    ⟨hwf.1, hwf.2.1, hwf.2.2.1, set_is_free_chain_ok hwf.2.2.2⟩
  obtain ⟨h1, h2, _, _, h5⟩ := coalesce_blocks_ok hwf1
  have hfree := mem_free_eq hwf.1 hlook
  obtain ⟨hb, hbp⟩ := lookup_some hlook
  have hused : ∀ x,
      x ∈ (coalesce_blocks
        { s with first_block := set_is_free true s.first_block b.addr }).first_block →
      x.is_free = false → x ∈ s.first_block ∧ x.addr ≠ b.addr := by
    intro x hx hu
    obtain ⟨h6, h7⟩ := mem_free_used hwf hfree hx hu
    refine ⟨h6, ?_⟩
    intro e
    apply h7
    rw [e]
    exact hbp
  refine ⟨_, hfree, h1, h2, ?_, hused, ?_⟩
  · intro x hx hu hne
    exact h5 x (mem_set_is_free hx hne) hu
  · intro x hx hxa
    cases hxf : x.is_free with
    | true => rfl
    | false => exact absurd hxa (hused x hx hxf).2

/-! ### The bytes after `mem_alloc` and `mem_calloc` -/

/-- The two searches agree on every chain without a block of `SIZE_MAX` bytes. -/
theorem searches_agree_below_SIZE_MAX (s : Allocator) (n : Nat)
    (hs : ∀ x, x ∈ s.first_block → x.size < SIZE_MAX) :
    find_first_fit s n = none ↔ find_best_fit s n = none := by
  unfold find_first_fit find_best_fit
  rw [find_first_fit_from_none]
  rcases find_best_fit_from_spec s.first_block none SIZE_MAX n with
    ⟨h1, h2⟩ | ⟨pre, b, post, h1, h2, h3, h4, _, _, _⟩
  · rw [h1]
    refine ⟨fun _ => rfl, fun _ x hx hfit => ?_⟩
    have := h2 x hx hfit.1 hfit.2
    have := hs x hx
    omega
  · rw [h2]
    refine ⟨fun h => ?_, fun h => (by cases h)⟩
    exact absurd ⟨h3, h4⟩ (h b (by rw [h1]; simp))

/-! ## The claims -/

/-- C1, a run on which the code breaks the claim: after `init_allocator(1024, FIRST_FIT)`,
`p = mem_alloc(100)` and `mem_realloc(p, 50)` the pointer `p` is still live and the
chain is `[50 used, 26 free, 876 free]`.  The in-place shrink has split a free remainder
off in front of the free tail and has not merged the two, so two consecutive blocks are
free when `mem_realloc` returns, and `mem_alloc(900)` fails although 926 contiguous
bytes are free. -/
theorem shrink_leaves_adjacent_free :
    (run (fresh static_state 1024 AllocationStrategy.FIRST_FIT)
        [Op.alloc 100, Op.realloc (some 24) 50]).map
      (fun c => (c.live, c.heap.first_block, has_adjacent_free c.heap.first_block,
        (mem_alloc c.heap 900).2)) =
      some ([24],
        [{ addr := 0, size := 50, is_free := false }, { addr := 74, size := 26, is_free := true },
         { addr := 124, size := 876, is_free := true }],
        true, none) := by
  decide

/-- C2, conservation: after `init_allocator(capacity, strategy)` with
`sizeof(MemoryBlock) ≤ capacity` (and `capacity` a size `malloc` can serve) and any
finite sequence of calls on live pointers,
`get_free_memory() + get_used_memory() + sizeof(MemoryBlock) * (number of blocks)`
equals `capacity`. -/
theorem conservation (s0 : Allocator) (capacity : Nat) (strategy : AllocationStrategy)
    (ops : List Op) (c : Client)
    (h1 : sizeof_MemoryBlock ≤ capacity) (h2 : capacity ≤ PTRDIFF_MAX)
    (hr : run (fresh s0 capacity strategy) ops = some c) :
    get_free_memory c.heap + get_used_memory c.heap +
      sizeof_MemoryBlock * c.heap.first_block.length = capacity := by
  obtain ⟨⟨hwf, _⟩, hsz, _⟩ := reachable_ok h1 h2 hr
  have h3 := accounting (f := 0) (u := 0) hwf.2.2.2 (by
    have := hwf.2.2.1
    simp only [SIZE_MOD, PTRDIFF_MAX] at *
    omega)
  unfold get_free_memory get_used_memory
  omega

/-- Conservation on the run of `fragmentation_test` up to the five releases:
560 free bytes, 200 used bytes and 11 headers make up the 1024 bytes. -/
theorem conservation_witness :
    sizeof_MemoryBlock ≤ 1024 ∧ 1024 ≤ PTRDIFF_MAX ∧
      ∃ c, run (fresh static_state 1024 AllocationStrategy.FIRST_FIT)
          (fragmentation_test_allocs ++ fragmentation_test_frees) = some c ∧
        get_free_memory c.heap = 560 ∧ get_used_memory c.heap = 200 ∧
        c.heap.first_block.length = 11 ∧
        get_free_memory c.heap + get_used_memory c.heap +
          sizeof_MemoryBlock * c.heap.first_block.length = 1024 :=
  ⟨by decide, by decide, _, rfl, by decide, by decide, by decide,
    conservation static_state 1024 AllocationStrategy.FIRST_FIT
      (fragmentation_test_allocs ++ fragmentation_test_frees) _ (by decide) (by decide) rfl⟩

/-- C3, the chain tiles the pool: after `init_allocator(capacity, strategy)` with
`sizeof(MemoryBlock) ≤ capacity` (and `capacity` a size `malloc` can serve) and any
finite sequence of calls on live pointers, the first header is at offset 0, the header
of every successor is at `offset + sizeof(MemoryBlock) + size` of its predecessor, the
last block ends at `capacity`; hence a block ends before any later block begins, no
block leaves the pool, and every live pointer is the payload of a block in use. -/
theorem gapless_chain (s0 : Allocator) (capacity : Nat) (strategy : AllocationStrategy)
    (ops : List Op) (c : Client)
    (h1 : sizeof_MemoryBlock ≤ capacity) (h2 : capacity ≤ PTRDIFF_MAX)
    (hr : run (fresh s0 capacity strategy) ops = some c) :
    (∃ b next, c.heap.first_block = b :: next ∧ b.addr = 0) ∧
      (∀ i b n, c.heap.first_block[i]? = some b → c.heap.first_block[i + 1]? = some n →
        n.addr = b.addr + sizeof_MemoryBlock + b.size) ∧
      (∀ b, c.heap.first_block.getLast? = some b →
        b.addr + sizeof_MemoryBlock + b.size = capacity) ∧
      (∀ (i j : Nat) (b d : MemoryBlock), i < j → c.heap.first_block[i]? = some b → c.heap.first_block[j]? = some d →
        b.addr + sizeof_MemoryBlock + b.size ≤ d.addr) ∧
      (∀ b, b ∈ c.heap.first_block → b.addr + sizeof_MemoryBlock + b.size ≤ capacity) ∧
      (∀ p, p ∈ c.live →
        ∃ b, b ∈ c.heap.first_block ∧ b.is_free = false ∧ p = b.addr + sizeof_MemoryBlock) := by
  obtain ⟨⟨hwf, hl⟩, hsz, _⟩ := reachable_ok h1 h2 hr
  obtain ⟨_, hmin, _, hok⟩ := hwf
  rw [hsz] at hok hmin
  refine ⟨?_, fun i b n hb hn => chain_ok_succ hok hb hn, fun b hb => chain_ok_last hok hb,
    fun i j b d hij hb hd => chain_ok_before hok hij hb hd,
    fun b hb => (chain_ok_mem hok hb).2, ?_⟩
  · cases hch : c.heap.first_block with
    | nil =>
      rw [hch] at hok
      have : 0 = capacity := hok
      simp only [sizeof_MemoryBlock] at hmin
      omega
    | cons b next =>
      rw [hch] at hok
      exact ⟨b, next, rfl, hok.1⟩
  · intro p hp
    obtain ⟨b, hb, hbp, hbu⟩ := hl p hp
    exact ⟨b, hb, hbu, hbp.symm⟩

/-- The tiling on the run of `fragmentation_test` up to the five releases: eleven
blocks of 64 bytes each up to offset 640, and the tail from 640 to 1024. -/
theorem gapless_chain_witness :
    sizeof_MemoryBlock ≤ 1024 ∧ 1024 ≤ PTRDIFF_MAX ∧
      ∃ c, run (fresh static_state 1024 AllocationStrategy.FIRST_FIT)
          (fragmentation_test_allocs ++ fragmentation_test_frees) = some c ∧
        c.heap.first_block.map (fun b => (b.addr, b.size)) =
          [(0, 40), (64, 40), (128, 40), (192, 40), (256, 40), (320, 40), (384, 40),
           (448, 40), (512, 40), (576, 40), (640, 360)] ∧
        c.live = [88, 216, 344, 472, 600] ∧
        ((∃ b next, c.heap.first_block = b :: next ∧ b.addr = 0) ∧
          (∀ i b n, c.heap.first_block[i]? = some b → c.heap.first_block[i + 1]? = some n →
            n.addr = b.addr + sizeof_MemoryBlock + b.size) ∧
          (∀ b, c.heap.first_block.getLast? = some b →
            b.addr + sizeof_MemoryBlock + b.size = 1024) ∧
          (∀ (i j : Nat) (b d : MemoryBlock), i < j → c.heap.first_block[i]? = some b →
            c.heap.first_block[j]? = some d →
            b.addr + sizeof_MemoryBlock + b.size ≤ d.addr) ∧
          (∀ b, b ∈ c.heap.first_block → b.addr + sizeof_MemoryBlock + b.size ≤ 1024) ∧
          (∀ p, p ∈ c.live →
            ∃ b, b ∈ c.heap.first_block ∧ b.is_free = false ∧
              p = b.addr + sizeof_MemoryBlock)) :=
  ⟨by decide, by decide, _, rfl, by decide, by decide,
    gapless_chain static_state 1024 AllocationStrategy.FIRST_FIT
      (fragmentation_test_allocs ++ fragmentation_test_frees) _ (by decide) (by decide) rfl⟩


/-- C4 as stated fails: on the run of `fragmentation_test` (the ten pointers returned
are 24, 88, ..., 600, and those of the indices 0, 2, 4, 6, 8 are released) it is not
the case that `mem_alloc(100)` returns `NULL`, nor that every free block is smaller
than 100 bytes. -/
theorem fragmentation_alloc_not_null :
    (run (fresh static_state 1024 AllocationStrategy.FIRST_FIT)
        fragmentation_test_allocs).map (fun c => c.live) =
      some [24, 88, 152, 216, 280, 344, 408, 472, 536, 600] ∧
    ∃ c, run (fresh static_state 1024 AllocationStrategy.FIRST_FIT)
        (fragmentation_test_allocs ++ fragmentation_test_frees) = some c ∧
      ¬ ((mem_alloc c.heap 100).2 = none) ∧
      ¬ (∀ b, b ∈ c.heap.first_block → b.is_free = true → b.size < 100) :=
  ⟨by decide, _, rfl, by decide, by decide⟩

/-- C4 amended: after `init_allocator(1024, FIRST_FIT)`, ten `mem_alloc(40)` and the
release of the blocks of indices 0, 2, 4, 6, 8, the free blocks are the five released
holes of 40 bytes each and the tail of 360 bytes that the ten allocations left over;
`get_free_memory()` is 560, no released hole can hold 100 bytes, and `mem_alloc(100)`
succeeds: first-fit serves it from the tail (header at offset 640) and returns
offset 664. -/
theorem fragmentation_alloc_served_from_tail :
    (run (fresh static_state 1024 AllocationStrategy.FIRST_FIT)
        (fragmentation_test_allocs ++ fragmentation_test_frees)).map
      (fun c => (c.heap.first_block.filter (fun b => b.is_free), get_free_memory c.heap,
        find_first_fit c.heap 100, (mem_alloc c.heap 100).2)) =
      some ([{ addr := 0, size := 40, is_free := true }, { addr := 128, size := 40, is_free := true },
          { addr := 256, size := 40, is_free := true }, { addr := 384, size := 40, is_free := true },
          { addr := 512, size := 40, is_free := true },
          { addr := 640, size := 360, is_free := true }],
        560, some { addr := 640, size := 360, is_free := true }, some 664) := by
  decide

/-- C5 as stated fails: after `init_allocator(1024, BEST_FIT)`, the allocations of 100,
200 and 300 bytes (returned at 24, 148 and 372) and the release of the first two, the
chain holds no free block of 100 bytes and no free block of 200 bytes. -/
theorem best_fit_scenario_no_two_holes :
    (run (fresh static_state 1024 AllocationStrategy.BEST_FIT)
        [Op.alloc 100, Op.alloc 200, Op.alloc 300]).map (fun c => c.live) =
      some [24, 148, 372] ∧
    ∃ c, run (fresh static_state 1024 AllocationStrategy.BEST_FIT)
        strategy_test_best_fit = some c ∧
      ¬ (∃ b, b ∈ c.heap.first_block ∧ b.is_free = true ∧ b.size = 100) ∧
      ¬ (∃ b, b ∈ c.heap.first_block ∧ b.is_free = true ∧ b.size = 200) :=
  ⟨by decide, _, rfl, by decide, by decide⟩

/-- C5 amended: after `init_allocator(1024, BEST_FIT)`, `p1 = mem_alloc(100)`,
`p2 = mem_alloc(200)`, `p3 = mem_alloc(300)`, `mem_free(p1)`, `mem_free(p2)` the two
released blocks are one hole of 324 = 100 + 24 + 200 bytes at the header of `p1`, and
the only other free block is the tail of 328 bytes; `mem_alloc(50)` is served from the
324-byte hole, the smallest free block that is large enough, and returns `p1`. -/
theorem best_fit_scenario_merged_hole :
    (run (fresh static_state 1024 AllocationStrategy.BEST_FIT)
        strategy_test_best_fit).map
      (fun c => (c.heap.first_block, find_best_fit c.heap 50, (mem_alloc c.heap 50).2,
        (mem_alloc c.heap 50).1.first_block)) =
      some ([{ addr := 0, size := 324, is_free := true },
          { addr := 348, size := 300, is_free := false },
          { addr := 672, size := 328, is_free := true }],
        some { addr := 0, size := 324, is_free := true }, some 24,
        [{ addr := 0, size := 50, is_free := false }, { addr := 74, size := 250, is_free := true },
          { addr := 348, size := 300, is_free := false },
          { addr := 672, size := 328, is_free := true }]) := by
  decide

/-- C6, allocation fails exactly when it must: in a state that is uninitialised or
reached by calls on live pointers, and under either strategy, `mem_alloc(size)` returns
`NULL` if and only if `size == 0`, or there is no pool, or no free block has
`size` bytes; and when it returns `NULL` the state, the chain included, is unchanged. -/
theorem alloc_fails_iff (s : Allocator) (n : Nat)
    (hs : s.memory_pool = none ∨ ∃ live, reachable { heap := s, live := live }) :
    ((mem_alloc s n).2 = none ↔
        (n = 0 ∨ s.memory_pool = none ∨
          ∀ b, b ∈ s.first_block → b.is_free = true → b.size < n)) ∧
      ((mem_alloc s n).2 = none → (mem_alloc s n).1 = s) := by
  rcases mem_alloc_cases s n with ⟨h, hwhy⟩ | ⟨blk, h0, hp, hb, h⟩
  · rw [h]
    refine ⟨⟨fun _ => ?_, fun _ => rfl⟩, fun _ => rfl⟩
    rcases hwhy with h1 | h1 | h1
    · exact Or.inl h1
    · right; left
      cases hm : s.memory_pool with
      | none => rfl
      | some m => rw [hm] at h1; cases h1
    · rcases hs with hs | ⟨live, hs⟩
      · exact Or.inr (Or.inl hs)
      · right; right
        have hwf := (reachable_client_ok hs).1
        have h2 := (chosen_block_none (n := n) (fun x hx => size_lt_SIZE_MAX hwf hx)).1 h1
        intro b hb hf
        have := h2 b hb
        by_contra hlt
        exact this ⟨hf, by omega⟩
  · rw [h]
    refine ⟨⟨fun hnone => (by cases hnone), fun hr => ?_⟩, fun hnone => (by cases hnone)⟩
    obtain ⟨hmem, hfree, hsize⟩ := chosen_block_some hb
    rcases hr with h1 | h1 | h1
    · exact absurd h1 h0
    · rw [h1] at hp; cases hp
    · have := h1 blk hmem hfree
      omega

/-- The fragmented pool of `fragmentation_test` under first-fit: `mem_alloc(400)` and
`mem_alloc(0)` return `NULL` and leave the state as it is, `mem_alloc(100)` does not
return `NULL`. -/
theorem alloc_fails_iff_witness :
    ∃ c, run (fresh static_state 1024 AllocationStrategy.FIRST_FIT)
        (fragmentation_test_allocs ++ fragmentation_test_frees) = some c ∧
      (mem_alloc c.heap 400).2 = none ∧ (mem_alloc c.heap 400).1 = c.heap ∧
      (mem_alloc c.heap 0).2 = none ∧ (mem_alloc c.heap 100).2 = some 664 ∧
      (∀ b, b ∈ c.heap.first_block → b.is_free = true → b.size < 400) ∧
      ((mem_alloc c.heap 400).2 = none ↔
        (400 = 0 ∨ c.heap.memory_pool = none ∨
          ∀ b, b ∈ c.heap.first_block → b.is_free = true → b.size < 400)) := by
  refine ⟨_, rfl, by decide, ?_, by decide, by decide, by decide, ?_⟩
  · exact (alloc_fails_iff _ 400 (Or.inr ⟨_, static_state, 1024, AllocationStrategy.FIRST_FIT,
      fragmentation_test_allocs ++ fragmentation_test_frees, by decide, by decide, rfl⟩)).2
      (by decide)
  · exact (alloc_fails_iff _ 400 (Or.inr ⟨_, static_state, 1024, AllocationStrategy.FIRST_FIT,
      fragmentation_test_allocs ++ fragmentation_test_frees, by decide, by decide, rfl⟩)).1


/-- C7, first-fit selection: under `FIRST_FIT`, when `mem_alloc(size)` returns a
pointer, it is the payload of a block that was free with at least `size` bytes before
the call, and every block before it in the chain was in use or smaller than `size`. -/
theorem first_fit_selection (s : Allocator) (n q : Nat)
    (hst : s.current_strategy = AllocationStrategy.FIRST_FIT)
    (hq : (mem_alloc s n).2 = some q) :
    ∃ pre b post, s.first_block = pre ++ b :: post ∧ b.is_free = true ∧ n ≤ b.size ∧
      q = get_data_pointer b.addr ∧ ∀ x, x ∈ pre → x.is_free = false ∨ x.size < n := by
  rcases mem_alloc_cases s n with ⟨h, _⟩ | ⟨blk, _, _, hb, h⟩
  · rw [h] at hq; cases hq
  · rw [h] at hq
    simp only [Option.some.injEq] at hq
    unfold chosen_block at hb
    rw [if_pos hst] at hb
    obtain ⟨pre, post, h1, h2, h3, h4⟩ := find_first_fit_from_some hb
    refine ⟨pre, blk, post, h1, h2, h3, hq.symm, ?_⟩
    intro x hx
    have := h4 x hx
    cases hf : x.is_free with
    | false => exact Or.inl rfl
    | true =>
      right
      by_contra hge
      exact this ⟨hf, by omega⟩

/-- The first half of `strategy_test`: the 200-byte allocation was returned at 148;
after its release `mem_alloc(50)` returns 148 again, the payload of the first free
block that is large enough (the block before it is in use), and not a span in the
tail at 672. -/
theorem first_fit_selection_witness :
    (run (fresh static_state 1024 AllocationStrategy.FIRST_FIT)
        [Op.alloc 100, Op.alloc 200]).map (fun c => c.live) = some [24, 148] ∧
    ∃ c, run (fresh static_state 1024 AllocationStrategy.FIRST_FIT)
        strategy_test_first_fit = some c ∧
      c.heap.first_block =
        [{ addr := 0, size := 100, is_free := false }, { addr := 124, size := 200, is_free := true },
         { addr := 348, size := 300, is_free := false },
         { addr := 672, size := 328, is_free := true }] ∧
      c.heap.current_strategy = AllocationStrategy.FIRST_FIT ∧
      (mem_alloc c.heap 50).2 = some 148 ∧
      ∃ pre b post, c.heap.first_block = pre ++ b :: post ∧ b.is_free = true ∧ 50 ≤ b.size ∧
        148 = get_data_pointer b.addr ∧ ∀ x, x ∈ pre → x.is_free = false ∨ x.size < 50 :=
  ⟨by decide, _, rfl, by decide, by decide, by decide,
    first_fit_selection _ 50 148 (by decide) (by decide)⟩

/-- C8, best-fit selection: under `BEST_FIT`, when `mem_alloc(size)` returns a pointer,
it is the payload of a block that was free with at least `size` bytes before the call,
no free block with at least `size` bytes was smaller, and every such block before it
in the chain was strictly larger (so it is the first one of the least size). -/
theorem best_fit_selection (s : Allocator) (n q : Nat)
    (hst : s.current_strategy = AllocationStrategy.BEST_FIT)
    (hq : (mem_alloc s n).2 = some q) :
    ∃ pre b post, s.first_block = pre ++ b :: post ∧ b.is_free = true ∧ n ≤ b.size ∧
      q = get_data_pointer b.addr ∧
      (∀ x, x ∈ s.first_block → x.is_free = true → n ≤ x.size → b.size ≤ x.size) ∧
      (∀ x, x ∈ pre → x.is_free = true → n ≤ x.size → b.size < x.size) := by
  rcases mem_alloc_cases s n with ⟨h, _⟩ | ⟨blk, _, _, hb, h⟩
  · rw [h] at hq; cases hq
  · rw [h] at hq
    simp only [Option.some.injEq] at hq
    unfold chosen_block at hb
    rw [if_neg (by rw [hst]; decide)] at hb
    unfold find_best_fit at hb
    rcases find_best_fit_from_spec s.first_block none SIZE_MAX n with
      ⟨h1, _⟩ | ⟨pre, b, post, h1, h2, h3, h4, _, h6, h7⟩
    · rw [h1] at hb; cases hb
    · rw [h2] at hb
      simp only [Option.some.injEq] at hb
      subst hb
      refine ⟨pre, b, post, h1, h3, h4, hq.symm, ?_, h6⟩
      intro x hx hf hn
      rw [h1] at hx
      rcases List.mem_append.1 hx with hx1 | hx1
      · exact Nat.le_of_lt (h6 x hx1 hf hn)
      · rcases List.mem_cons.1 hx1 with hx2 | hx2
        · rw [hx2]
        · exact h7 x hx2 hf hn

/-- A pool with free blocks of 200, 100 and 100 bytes and the tail (allocations of
200, 8, 100, 8, 100, 8 bytes, the large ones released): under best-fit `mem_alloc(50)`
returns 280, the payload of the first of the two 100-byte blocks, and neither the
200-byte block before it nor the second 100-byte block. -/
theorem best_fit_selection_witness :
    ∃ c, run (fresh static_state 1024 AllocationStrategy.BEST_FIT)
        [Op.alloc 200, Op.alloc 8, Op.alloc 100, Op.alloc 8, Op.alloc 100, Op.alloc 8,
         Op.free (some 24), Op.free (some 280), Op.free (some 436)] = some c ∧
      c.heap.first_block =
        [{ addr := 0, size := 200, is_free := true }, { addr := 224, size := 8, is_free := false },
         { addr := 256, size := 100, is_free := true }, { addr := 380, size := 8, is_free := false },
         { addr := 412, size := 100, is_free := true }, { addr := 536, size := 8, is_free := false },
         { addr := 568, size := 432, is_free := true }] ∧
      c.heap.current_strategy = AllocationStrategy.BEST_FIT ∧
      (mem_alloc c.heap 50).2 = some 280 ∧
      ∃ pre b post, c.heap.first_block = pre ++ b :: post ∧ b.is_free = true ∧ 50 ≤ b.size ∧
        280 = get_data_pointer b.addr ∧
        (∀ x, x ∈ c.heap.first_block → x.is_free = true → 50 ≤ x.size → b.size ≤ x.size) ∧
        (∀ x, x ∈ pre → x.is_free = true → 50 ≤ x.size → b.size < x.size) :=
  ⟨_, rfl, by decide, by decide, by decide,
    best_fit_selection _ 50 280 (by decide) (by decide)⟩


/-- C9, resize preserves data: for a live pointer `p` whose block has `s` payload bytes
and every `new_size`, `mem_realloc(p, new_size)` has a result, and when it returns a
pointer `q`, the first `min(s, new_size)` bytes at `q` after the call are the first
`min(s, new_size)` bytes at `p` before it.  The statement covers the three paths of
`mem_realloc` (shrink in place, grow into the successor, allocate-copy-release); with
`new_size = 0` the call returns `NULL` and nothing is said. -/
theorem realloc_preserves_data (c : Client) (p n : Nat) (b : MemoryBlock)
    (hc : reachable c) (hp : p ∈ c.live) (hb : b ∈ c.heap.first_block)
    (hbp : get_data_pointer b.addr = p) :
    ∃ r, mem_realloc c.heap (some p) n = some r ∧
      ∀ q, r.2 = some q →
        ∀ i, i < min b.size n → read_byte r.1 (q + i) = read_byte c.heap (p + i) := by
  obtain ⟨hwf, hl⟩ := reachable_client_ok hc
  obtain ⟨r, h1, _, _, _, _, _, _, h2⟩ := mem_realloc_ok (n := n) hwf (hl p hp)
  exact ⟨r, h1, fun q hq i hi => (h2 q hq).2 b hb hbp i hi⟩

/-- The run of `realloc_test`: five `int` values `i * 10` are stored in a 20-byte
block; the resize to 40 bytes grows the block in place and the resize to 12 bytes
keeps it in place, both return the same pointer, and the bytes of the leading values
are unchanged.  The same data moved by a resize that has to allocate, copy and release
(a second block bars the way) arrives unchanged at the new pointer 112. -/
theorem realloc_preserves_data_witness :
    ∃ c, run (fresh static_state 1024 AllocationStrategy.FIRST_FIT)
        ([Op.alloc 20] ++ realloc_test_stores) = some c ∧
      c.live = [24] ∧
      payload c.heap 24 20 =
        [some 0, some 0, some 0, some 0, some 10, some 0, some 0, some 0,
         some 20, some 0, some 0, some 0, some 30, some 0, some 0, some 0,
         some 40, some 0, some 0, some 0] ∧
      (∃ r, mem_realloc c.heap (some 24) 40 = some r ∧
        ∀ q, r.2 = some q →
          ∀ i, i < min 20 40 → read_byte r.1 (q + i) = read_byte c.heap (24 + i)) ∧
      (mem_realloc c.heap (some 24) 40).map
          (fun r => (r.2, r.1.first_block, payload r.1 24 20)) =
        some (some 24,
          [{ addr := 0, size := 40, is_free := false }, { addr := 64, size := 936, is_free := true }],
          [some 0, some 0, some 0, some 0, some 10, some 0, some 0, some 0,
           some 20, some 0, some 0, some 0, some 30, some 0, some 0, some 0,
           some 40, some 0, some 0, some 0]) ∧
      ((mem_realloc c.heap (some 24) 40).bind
          (fun r => mem_realloc r.1 (some 24) 12)).map
          (fun r => (r.2, r.1.first_block, payload r.1 24 12)) =
        some (some 24,
          [{ addr := 0, size := 40, is_free := false }, { addr := 64, size := 936, is_free := true }],
          [some 0, some 0, some 0, some 0, some 10, some 0, some 0, some 0,
           some 20, some 0, some 0, some 0]) ∧
      (run (fresh static_state 1024 AllocationStrategy.FIRST_FIT)
          ([Op.alloc 20, Op.alloc 20] ++ realloc_test_stores)).bind
          (fun d => (mem_realloc d.heap (some 24) 40).map
            (fun r => (r.2, r.1.first_block, payload r.1 112 20))) =
        some (some 112,
          [{ addr := 0, size := 20, is_free := true }, { addr := 44, size := 20, is_free := false },
           { addr := 88, size := 40, is_free := false },
           { addr := 152, size := 848, is_free := true }],
          [some 0, some 0, some 0, some 0, some 10, some 0, some 0, some 0,
           some 20, some 0, some 0, some 0, some 30, some 0, some 0, some 0,
           some 40, some 0, some 0, some 0]) :=
  ⟨_, rfl, by decide, by decide,
    realloc_preserves_data _ 24 40 { addr := 0, size := 20, is_free := false }
      ⟨static_state, 1024, AllocationStrategy.FIRST_FIT, [Op.alloc 20] ++ realloc_test_stores,
        by decide, by decide, rfl⟩ (by decide) (by decide) (by decide),
    by decide, by decide, by decide⟩


/-- C10, a failed resize changes nothing: for a live pointer `p` and `new_size > 0`,
when the block of `p` is smaller than `new_size`, cannot grow into its successor, and
no free block has `new_size` bytes, `mem_realloc(p, new_size)` returns `NULL` and the
state is the one before the call (the same chain, the same bytes); `p` stays live and
its block stays in use. -/
theorem realloc_failure_atomic (c : Client) (p n : Nat) (b : MemoryBlock)
    (hc : reachable c) (hp : p ∈ c.live) (hb : b ∈ c.heap.first_block)
    (hbp : get_data_pointer b.addr = p) (hn : 0 < n) (hsmall : b.size < n)
    (hgrow : ∀ nx, next_block c.heap.first_block b.addr = some nx →
      ¬ (nx.is_free = true ∧ n ≤ b.size + sizeof_MemoryBlock + nx.size))
    (hnofit : ∀ x, x ∈ c.heap.first_block → x.is_free = true → x.size < n) :
    mem_realloc c.heap (some p) n = some (c.heap, none) ∧
      step c (Op.realloc (some p) n) = some c ∧ b.is_free = false := by
  obtain ⟨hwf, hl⟩ := reachable_client_ok hc
  obtain ⟨b1, hlook, hb1, hb1p, hb1u⟩ := header_of_in_use hwf.2.2.2 (hl p hp)
  have hbb : b1 = b := by
    apply addr_unique hwf.2.2.2 hb1 hb
    unfold get_data_pointer at hb1p hbp
    omega
  subst hbb
  have hx := header_at_of_mem hwf.2.2.2 hb1
  have halloc : mem_alloc c.heap n = (c.heap, none) :=
    mem_alloc_fail (Or.inr (Or.inr (chosen_block_none_of_no_fit (fun x hx hfit => by
      have := hnofit x hx hfit.1
      omega))))
  have hmove : realloc_move c.heap p b1.addr n = some (c.heap, none) := by
    unfold realloc_move
    rw [halloc]
  have hres : mem_realloc c.heap (some p) n = some (c.heap, none) := by
    unfold mem_realloc
    simp only
    rw [if_neg (by omega), hlook]
    simp only
    rw [if_neg (by omega)]
    rcases Option.eq_none_or_eq_some (next_block c.heap.first_block b1.addr) with
      hnx | ⟨nx, hnx⟩
    · rw [hnx]
      exact hmove
    · rw [hnx]
      simp only
      have hnomod : (b1.size + sizeof_MemoryBlock + nx.size) % SIZE_MOD =
          b1.size + sizeof_MemoryBlock + nx.size := by
        obtain ⟨hmem, hadr⟩ := next_block_some hwf.2.2.2 hx hnx
        have h1 := chain_ok_mem hwf.2.2.2 hmem
        have h2 := hwf.2.2.1
        apply Nat.mod_eq_of_lt
        simp only [sizeof_MemoryBlock, SIZE_MOD, PTRDIFF_MAX] at *
        omega
      rw [hnomod, if_neg (hgrow nx hnx)]
      exact hmove
  refine ⟨hres, ?_, hb1u⟩
  simp only [step]
  rw [if_pos hp, hres]
  simp only [Option.map_some', live_after_realloc]
  rw [if_neg (by omega)]

/-- A pool where the 100-byte block at 24 is followed by a block in use and the only
free block has 28 bytes: `mem_realloc(24, 150)` returns `NULL` and the chain is the
one before the call. -/
theorem realloc_failure_atomic_witness :
    ∃ c, run (fresh static_state 1024 AllocationStrategy.FIRST_FIT)
        [Op.alloc 100, Op.alloc 200, Op.alloc 600] = some c ∧
      c.live = [24, 148, 372] ∧
      c.heap.first_block =
        [{ addr := 0, size := 100, is_free := false }, { addr := 124, size := 200, is_free := false },
         { addr := 348, size := 600, is_free := false },
         { addr := 972, size := 28, is_free := true }] ∧
      mem_realloc c.heap (some 24) 150 = some (c.heap, none) ∧
      step c (Op.realloc (some 24) 150) = some c ∧
      (run c [Op.realloc (some 24) 150]).map (fun d => (d.live, d.heap.first_block)) =
        some (c.live, c.heap.first_block) := by
  refine ⟨_, rfl, by decide, by decide, ?_, ?_, by decide⟩
  · exact (realloc_failure_atomic _ 24 150 { addr := 0, size := 100, is_free := false }
      ⟨static_state, 1024, AllocationStrategy.FIRST_FIT,
        [Op.alloc 100, Op.alloc 200, Op.alloc 600], by decide, by decide, rfl⟩
      (by decide) (by decide) (by decide) (by decide) (by decide) (by decide) (by decide)).1
  · exact (realloc_failure_atomic _ 24 150 { addr := 0, size := 100, is_free := false }
      ⟨static_state, 1024, AllocationStrategy.FIRST_FIT,
        [Op.alloc 100, Op.alloc 200, Op.alloc 600], by decide, by decide, rfl⟩
      (by decide) (by decide) (by decide) (by decide) (by decide) (by decide) (by decide)).2.1

/-- C11, resize in place: for a live pointer `p` with block `b` and `new_size > 0`, when
`b.size ≥ new_size`, or when the successor of `b` exists, is free and
`b.size + sizeof(MemoryBlock) + successor.size ≥ new_size`, `mem_realloc(p, new_size)`
returns `p`; afterwards the block at the header of `p` is in use and has at least
`new_size` bytes.  In the first case the result is `split_block` on the state as it
was; in the second the successor is taken out of the chain first and `split_block` runs
on the merged block, and no node is left at the offset of the successor. -/
theorem realloc_in_place (c : Client) (p n : Nat) (b : MemoryBlock)
    (hc : reachable c) (hp : p ∈ c.live) (hb : b ∈ c.heap.first_block)
    (hbp : get_data_pointer b.addr = p) (hn : 0 < n)
    (hfit : n ≤ b.size ∨ ∃ nx, next_block c.heap.first_block b.addr = some nx ∧
      nx.is_free = true ∧ n ≤ b.size + sizeof_MemoryBlock + nx.size) :
    ∃ s1, mem_realloc c.heap (some p) n = some (s1, some p) ∧
      (∃ b1, b1 ∈ s1.first_block ∧ b1.addr = b.addr ∧ b1.is_free = false ∧ n ≤ b1.size) ∧
      (n ≤ b.size → s1 = split_block c.heap b.addr n) ∧
      (b.size < n → ∀ nx, next_block c.heap.first_block b.addr = some nx →
        s1 = split_block
            { c.heap with first_block := at_block absorb_next c.heap.first_block b.addr }
            b.addr n ∧
          nx ∉ at_block absorb_next c.heap.first_block b.addr ∧
          ∀ x, x ∈ s1.first_block → x.addr ≠ nx.addr) := by
  obtain ⟨hwf, hl⟩ := reachable_client_ok hc
  obtain ⟨b2, hlook, hb2, hb2p, hbu⟩ := header_of_in_use hwf.2.2.2 (hl p hp)
  have hbb : b2 = b := by
    apply addr_unique hwf.2.2.2 hb2 hb
    unfold get_data_pointer at hb2p hbp
    omega
  subst hbb
  have hx := header_at_of_mem hwf.2.2.2 hb2
  have hmax := hwf.2.2.1
  have heq := mem_realloc_eq (n := n) hlook (by omega)
  by_cases hge : b2.size ≥ n
  · rw [if_pos hge] at heq
    obtain ⟨_, _, _, _, ⟨b1, hb1, hb1a, hb1f, hb1n, _⟩, _⟩ :=
      split_block_ok (n := n) hwf hx hge
    exact ⟨_, heq, ⟨b1, hb1, hb1a, by rw [hb1f]; exact hbu, hb1n⟩, fun _ => rfl,
      fun hlt => absurd hge (by omega)⟩
  · rw [if_neg hge] at heq
    rcases hfit with hfit | ⟨nx, hnx, hnxf, hnxs⟩
    · exact absurd hfit hge
    · obtain ⟨hnxmem, hnxa⟩ := next_block_some hwf.2.2.2 hx hnx
      have hnxb := chain_ok_mem hwf.2.2.2 hnxmem
      have hmod : (b2.size + sizeof_MemoryBlock + nx.size) % SIZE_MOD =
          b2.size + sizeof_MemoryBlock + nx.size := by
        apply Nat.mod_eq_of_lt
        simp only [sizeof_MemoryBlock, SIZE_MOD, PTRDIFF_MAX] at *
        omega
      rw [hnx] at heq
      simp only at heq
      rw [hmod, if_pos ⟨hnxf, hnxs⟩] at heq
      have hwf1 : well_formed
          { c.heap with first_block := at_block absorb_next c.heap.first_block b2.addr } :=
        ⟨hwf.1, hwf.2.1, hwf.2.2.1,
          at_block_chain_ok hx (fun a next h => absorb_next_chain_ok hwf.2.2.1 h) hwf.2.2.2⟩
      have hmem1 := absorb_target hx hnx
      have hx1 := header_at_of_mem hwf1.2.2.2 hmem1
      have hsize : (b2.size + (sizeof_MemoryBlock + nx.size) % SIZE_MOD) % SIZE_MOD =
          b2.size + sizeof_MemoryBlock + nx.size := by
        simp only [sizeof_MemoryBlock, SIZE_MOD, PTRDIFF_MAX] at *
        omega
      obtain ⟨hwf2, _, _, _, ⟨b1, hb1, hb1a, hb1f, hb1n, _⟩, _⟩ :=
        split_block_ok (n := n) hwf1 hx1 (by
          show n ≤ (b2.size + (sizeof_MemoryBlock + nx.size) % SIZE_MOD) % SIZE_MOD
          rw [hsize]
          exact hnxs)
      have hb1a2 : b1.addr = b2.addr := hb1a
      refine ⟨_, heq, ⟨b1, hb1, hb1a2, by rw [hb1f]; exact hbu, hb1n⟩,
        fun hle => absurd hle hge, ?_⟩
      intro _ nx1 hnx1
      have hnn : nx1 = nx := by
        rw [hnx] at hnx1
        exact (Option.some.inj hnx1).symm
      subst hnn
      refine ⟨rfl, ?_, ?_⟩
      · intro hin
        have hne : ({ b2 with size :=
            (b2.size + (sizeof_MemoryBlock + nx1.size) % SIZE_MOD) % SIZE_MOD } : MemoryBlock) ≠
            nx1 := by
          intro e
          have e0 := congrArg MemoryBlock.addr e
          have e1 : b2.addr = nx1.addr := e0
          simp only [sizeof_MemoryBlock] at hnxa
          omega
        have hd := spans_disjoint hwf1.2.2.2 hmem1 hin hne
        have hd1 : b2.addr + sizeof_MemoryBlock +
            (b2.size + (sizeof_MemoryBlock + nx1.size) % SIZE_MOD) % SIZE_MOD ≤ nx1.addr ∨
            nx1.addr + sizeof_MemoryBlock + nx1.size ≤ b2.addr := hd
        rw [hsize] at hd1
        simp only [sizeof_MemoryBlock] at hd1 hnxa
        omega
      · intro x hx2 hxa
        have hne : b1 ≠ x := by
          intro e
          have e0 := congrArg MemoryBlock.addr e
          have e1 : b1.addr = x.addr := e0
          simp only [sizeof_MemoryBlock] at hnxa
          omega
        have hd := spans_disjoint hwf2.2.2.2 hb1 hx2 hne
        simp only [sizeof_MemoryBlock] at hd hnxa
        omega

/-- The run of `realloc_test`: the 20-byte block at 24 is followed by the free tail, so
the resize to 40 bytes returns 24 and takes the tail in before it splits; the resize
of the 40-byte block to 12 bytes returns 24 as well. -/
theorem realloc_in_place_witness :
    ∃ c, run (fresh static_state 1024 AllocationStrategy.FIRST_FIT) [Op.alloc 20] = some c ∧
      c.live = [24] ∧
      c.heap.first_block =
        [{ addr := 0, size := 20, is_free := false }, { addr := 44, size := 956, is_free := true }] ∧
      (mem_realloc c.heap (some 24) 40).map (fun r => (r.2, r.1.first_block)) =
        some (some 24,
          [{ addr := 0, size := 40, is_free := false }, { addr := 64, size := 936, is_free := true }]) ∧
      ((mem_realloc c.heap (some 24) 40).bind
          (fun r => mem_realloc r.1 (some 24) 12)).map (fun r => (r.2, r.1.first_block)) =
        some (some 24,
          [{ addr := 0, size := 40, is_free := false }, { addr := 64, size := 936, is_free := true }]) ∧
      ∃ s1, mem_realloc c.heap (some 24) 40 = some (s1, some 24) ∧
        (∃ b1, b1 ∈ s1.first_block ∧ b1.addr = 0 ∧ b1.is_free = false ∧ 40 ≤ b1.size) ∧
        (40 ≤ 20 → s1 = split_block c.heap 0 40) ∧
        (20 < 40 → ∀ nx, next_block c.heap.first_block 0 = some nx →
          s1 = split_block
              { c.heap with first_block := at_block absorb_next c.heap.first_block 0 }
              0 40 ∧
            nx ∉ at_block absorb_next c.heap.first_block 0 ∧
            ∀ x, x ∈ s1.first_block → x.addr ≠ nx.addr) :=
  ⟨_, rfl, by decide, by decide, by decide, by decide,
    realloc_in_place _ 24 40 { addr := 0, size := 20, is_free := false }
      ⟨static_state, 1024, AllocationStrategy.FIRST_FIT, [Op.alloc 20],
        by decide, by decide, rfl⟩
      (by decide) (by decide) (by decide) (by decide)
      (Or.inr ⟨{ addr := 44, size := 956, is_free := true }, by decide, by decide,
        by decide⟩)⟩

/-- C12, a run on which the code breaks the claim: three blocks of 100 bytes are
allocated at 24, 148 and 272 and the third is shrunk in place to 50 bytes, which leaves
the chain `[100 used, 100 used, 50 used, 26 free, 628 free]`.  The blocks at 24 and 148
are two adjacent blocks in use whose only neighbour is in use.  Released in either
order they become one free block of 224 = 100 + 100 + 24 bytes, but the two free blocks
behind the third one do not stay as they were: the release merges them into one block
of 678 bytes. -/
theorem release_merges_blocks_elsewhere :
    (run (fresh static_state 1024 AllocationStrategy.FIRST_FIT)
        [Op.alloc 100, Op.alloc 100, Op.alloc 100, Op.realloc (some 272) 50]).map
      (fun c => (c.live, c.heap.first_block)) =
      some ([24, 148, 272],
        [{ addr := 0, size := 100, is_free := false }, { addr := 124, size := 100, is_free := false },
         { addr := 248, size := 50, is_free := false }, { addr := 322, size := 26, is_free := true },
         { addr := 372, size := 628, is_free := true }]) ∧
    (run (fresh static_state 1024 AllocationStrategy.FIRST_FIT)
        [Op.alloc 100, Op.alloc 100, Op.alloc 100, Op.realloc (some 272) 50,
         Op.free (some 24), Op.free (some 148)]).map (fun c => c.heap.first_block) =
      some [{ addr := 0, size := 224, is_free := true }, { addr := 248, size := 50, is_free := false },
        { addr := 322, size := 678, is_free := true }] ∧
    (run (fresh static_state 1024 AllocationStrategy.FIRST_FIT)
        [Op.alloc 100, Op.alloc 100, Op.alloc 100, Op.realloc (some 272) 50,
         Op.free (some 148), Op.free (some 24)]).map (fun c => c.heap.first_block) =
      some [{ addr := 0, size := 224, is_free := true }, { addr := 248, size := 50, is_free := false },
        { addr := 322, size := 678, is_free := true }] := by
  decide

/-- C13, full release restores the initial arena: after `init_allocator(capacity,
strategy)` with `sizeof(MemoryBlock) ≤ capacity` (and `capacity` a size `malloc` can
serve) and any finite sequence of calls on live pointers at whose end no pointer is
live, the chain is one free block of `capacity - sizeof(MemoryBlock)` bytes, and every
`mem_alloc(n)` with `0 < n ≤ capacity - sizeof(MemoryBlock)` returns a pointer (the
start of the pool's first payload). -/
theorem full_release_restores (s0 : Allocator) (capacity : Nat)
    (strategy : AllocationStrategy) (ops : List Op) (c : Client)
    (h1 : sizeof_MemoryBlock ≤ capacity) (h2 : capacity ≤ PTRDIFF_MAX)
    (hr : run (fresh s0 capacity strategy) ops = some c) (hl : c.live = []) :
    c.heap.first_block =
        [{ addr := 0, size := capacity - sizeof_MemoryBlock, is_free := true }] ∧
      ∀ n, 0 < n → n ≤ capacity - sizeof_MemoryBlock →
        (mem_alloc c.heap n).2 = some sizeof_MemoryBlock := by
  have hfresh := fresh_ok s0 strategy h1 h2
  obtain ⟨⟨hwf, _⟩, hsz, _⟩ := reachable_ok h1 h2 hr
  have hu0 : used_are_live (fresh s0 capacity strategy) := by
    intro x hx hxu
    unfold fresh init_allocator at hx
    simp only [List.mem_singleton] at hx
    rw [hx] at hxu
    cases hxu
  obtain ⟨_, hone⟩ := run_single hfresh hu0 (fun _ => ⟨_, rfl⟩) hr
  obtain ⟨sz, hch⟩ := hone hl
  have hok := hwf.2.2.2
  rw [hch, hsz] at hok
  have hsz2 : 0 + sizeof_MemoryBlock + sz = capacity := hok.2
  have hsz3 : sz = capacity - sizeof_MemoryBlock := by omega
  rw [hsz3] at hch
  refine ⟨hch, ?_⟩
  intro n hn hle
  rcases mem_alloc_cases c.heap n with ⟨_, hwhy⟩ | ⟨blk, _, _, hb, h⟩
  · exfalso
    rcases hwhy with h3 | h3 | h3
    · omega
    · have := hwf.1
      cases hm : c.heap.memory_pool with
      | none => rw [hm] at this; cases this
      | some m => rw [hm] at h3; cases h3
    · have h4 := (chosen_block_none (n := n) (fun x hx => size_lt_SIZE_MAX hwf hx)).1 h3
      apply h4 { addr := 0, size := capacity - sizeof_MemoryBlock, is_free := true }
      · rw [hch]
        exact List.mem_cons_self _ _
      · exact ⟨rfl, hle⟩
  · rw [h]
    obtain ⟨hmem, _, _⟩ := chosen_block_some hb
    rw [hch] at hmem
    simp only [List.mem_singleton] at hmem
    rw [hmem]
    show some (get_data_pointer 0) = some sizeof_MemoryBlock
    unfold get_data_pointer
    rw [Nat.zero_add]

/-- The whole of `fragmentation_test`: ten blocks of 40 bytes, the release of every
other one, the allocation of 100 bytes that is served from the tail and its release,
the release of the five blocks left; then the chain is one free block of 1000 bytes
and `mem_alloc(400)` returns a pointer. -/
theorem full_release_restores_witness :
    sizeof_MemoryBlock ≤ 1024 ∧ 1024 ≤ PTRDIFF_MAX ∧
      ∃ c, run (fresh static_state 1024 AllocationStrategy.FIRST_FIT)
          (fragmentation_test_allocs ++ fragmentation_test_frees ++
            fragmentation_test_rest) = some c ∧
        c.live = [] ∧
        (mem_alloc c.heap 400).2 = some 24 ∧
        (c.heap.first_block =
            [{ addr := 0, size := 1024 - sizeof_MemoryBlock, is_free := true }] ∧
          ∀ n, 0 < n → n ≤ 1024 - sizeof_MemoryBlock →
            (mem_alloc c.heap n).2 = some sizeof_MemoryBlock) :=
  ⟨by decide, by decide, _, rfl, by decide, by decide,
    full_release_restores static_state 1024 AllocationStrategy.FIRST_FIT
      (fragmentation_test_allocs ++ fragmentation_test_frees ++ fragmentation_test_rest) _
      (by decide) (by decide) rfl (by decide)⟩

/-- C14 as stated fails: `p = mem_alloc(100)` returns 24, `mem_free(p)` releases it, and
`mem_alloc(200)` hands the offset 24 out again, as the payload of a block of 200
bytes.  The second `mem_free(p)` is not rejected: it has an ordinary result, in which
the 200-byte block of the live pointer is free (and merged with the tail), so a block
other than the 100-byte block that `p` owned has changed its free flag. -/
theorem second_free_releases_live_block :
    (run (fresh static_state 1024 AllocationStrategy.FIRST_FIT)
        [Op.alloc 100]).map (fun c => (c.live, c.heap.first_block)) =
      some ([24],
        [{ addr := 0, size := 100, is_free := false }, { addr := 124, size := 876, is_free := true }]) ∧
    ∃ c, run (fresh static_state 1024 AllocationStrategy.FIRST_FIT)
        [Op.alloc 100, Op.free (some 24), Op.alloc 200] = some c ∧
      c.live = [24] ∧
      c.heap.first_block =
        [{ addr := 0, size := 200, is_free := false }, { addr := 224, size := 776, is_free := true }] ∧
      (mem_free c.heap (some 24)).map (fun s => s.first_block) =
        some [{ addr := 0, size := 1000, is_free := true }] ∧
      ¬ ((mem_free c.heap (some 24)).map (fun s => s.first_block) =
        some c.heap.first_block) :=
  ⟨by decide, _, rfl, by decide, by decide, by decide, by decide⟩

/-- C14 amended: `mem_free` has no failure result and checks nothing.  In a well-formed
state, when the header of `p` is a node `b` of the chain (free already, or handed out
again by a later `mem_alloc`), `mem_free(p)` has a result: the node at the header of
`p` is free afterwards, every other block in use keeps its place, size and flag, and
no block in use appears that was not in use before. -/
theorem free_marks_node_free (s : Allocator) (p : Nat) (b : MemoryBlock)
    (hwf : well_formed s)
    (hlook : (get_block_header p).bind (header_at s.first_block) = some b) :
    ∃ s1, mem_free s (some p) = some s1 ∧
      (∀ x, x ∈ s.first_block → x.is_free = false → x.addr ≠ b.addr → x ∈ s1.first_block) ∧
      (∀ x, x ∈ s1.first_block → x.is_free = false → x ∈ s.first_block ∧ x.addr ≠ b.addr) ∧
      ∀ x, x ∈ s1.first_block → x.addr = b.addr → x.is_free = true := by
  obtain ⟨s1, h1, _, _, h2, h3, h4⟩ := mem_free_any hwf hlook
  exact ⟨s1, h1, h2, h3, h4⟩

/-- Two releases of the pointer 24 in a row, with a second block in use behind it: the
header of 24 is still a node of the chain at the second call, which has a result and
leaves the chain as the first release left it. -/
theorem free_marks_node_free_witness :
    ∃ c, run (fresh static_state 1024 AllocationStrategy.FIRST_FIT)
        [Op.alloc 100, Op.alloc 100, Op.free (some 24)] = some c ∧
      c.live = [148] ∧
      c.heap.first_block =
        [{ addr := 0, size := 100, is_free := true }, { addr := 124, size := 100, is_free := false },
         { addr := 248, size := 752, is_free := true }] ∧
      (mem_free c.heap (some 24)).map (fun s => s.first_block) = some c.heap.first_block ∧
      ∃ s1, mem_free c.heap (some 24) = some s1 ∧
        (∀ x, x ∈ c.heap.first_block → x.is_free = false → x.addr ≠ 0 → x ∈ s1.first_block) ∧
        (∀ x, x ∈ s1.first_block → x.is_free = false → x ∈ c.heap.first_block ∧ x.addr ≠ 0) ∧
        ∀ x, x ∈ s1.first_block → x.addr = 0 → x.is_free = true :=
  ⟨_, rfl, by decide, by decide, by decide,
    free_marks_node_free _ 24 { addr := 0, size := 100, is_free := true }
      (reachable_client_ok ⟨static_state, 1024, AllocationStrategy.FIRST_FIT,
        [Op.alloc 100, Op.alloc 100, Op.free (some 24)], by decide, by decide, rfl⟩).1
      (by decide)⟩

/-- C15, the fragmentation ratio over exact numbers: with `f` free blocks among the `t`
blocks of the chain, for every state (the uninitialised one has the empty chain),
`get_fragmentation()` equals `(f - 1) / (t - 1)` when `f ≥ 2` and `0` when `f ≤ 1`; the
result lies in `[0, 1]`, and the divisor `t - 1` is not zero when the division is done. -/
theorem fragmentation_ratio (s : Allocator) :
    get_fragmentation s =
        (if 2 ≤ (s.first_block.filter (fun b => b.is_free)).length then
          (((s.first_block.filter (fun b => b.is_free)).length : ℚ) - 1) /
            ((s.first_block.length : ℚ) - 1)
         else 0) ∧
      0 ≤ get_fragmentation s ∧ get_fragmentation s ≤ 1 ∧
      (2 ≤ (s.first_block.filter (fun b => b.is_free)).length →
        total_blocks_from s.first_block 0 - 1 ≠ 0) := by
  have hle : (s.first_block.filter (fun b => b.is_free)).length ≤ s.first_block.length :=
    List.length_filter_le _ _
  generalize hf : (s.first_block.filter (fun b => b.is_free)).length = f at hle
  generalize ht : s.first_block.length = t at hle
  have hval : get_fragmentation s = (if 2 ≤ f then ((f : ℚ) - 1) / ((t : ℚ) - 1) else 0) := by
    unfold get_fragmentation
    rw [free_block_count_from_eq, total_blocks_from_eq, hf, ht]
    by_cases h2 : 2 ≤ f
    · rw [if_neg (by omega), if_pos h2]
      congr 1
      · push_cast
        ring
      · ring
    · rw [if_pos (by omega), if_neg h2]
  have hfq : (f : ℚ) ≤ (t : ℚ) := by exact_mod_cast hle
  refine ⟨hval, ?_, ?_, ?_⟩
  · rw [hval]
    by_cases h2 : 2 ≤ f
    · rw [if_pos h2]
      have h2q : (2 : ℚ) ≤ (f : ℚ) := by exact_mod_cast h2
      apply div_nonneg <;> linarith
    · rw [if_neg h2]
  · rw [hval]
    by_cases h2 : 2 ≤ f
    · rw [if_pos h2]
      have h2q : (2 : ℚ) ≤ (f : ℚ) := by exact_mod_cast h2
      rw [div_le_one (by linarith)]
      linarith
    · rw [if_neg h2]
      exact zero_le_one
  · intro h2
    rw [total_blocks_from_eq, ht]
    have h2q : (2 : ℚ) ≤ (f : ℚ) := by exact_mod_cast h2
    intro h0
    linarith

/-- C17, the state after `init_allocator(capacity, strategy)`: for every `size_t`
capacity of at least `sizeof(MemoryBlock)`, every strategy and every state before the
call, the chain is one free block of `capacity - sizeof(MemoryBlock)` bytes without a
successor; `get_free_memory()` is `capacity - sizeof(MemoryBlock)`, `get_used_memory()`
and `get_fragmentation()` are 0, and the strategy is the one passed. -/
theorem init_postcondition (s0 : Allocator) (capacity : Nat) (strategy : AllocationStrategy)
    (h1 : sizeof_MemoryBlock ≤ capacity) (h2 : capacity ≤ SIZE_MAX) :
    (init_allocator s0 capacity strategy).first_block =
        [{ addr := 0, size := capacity - sizeof_MemoryBlock, is_free := true }] ∧
      get_free_memory (init_allocator s0 capacity strategy) = capacity - sizeof_MemoryBlock ∧
      get_used_memory (init_allocator s0 capacity strategy) = 0 ∧
      get_fragmentation (init_allocator s0 capacity strategy) = 0 ∧
      (init_allocator s0 capacity strategy).current_strategy = strategy ∧
      (init_allocator s0 capacity strategy).memory_pool_size = capacity ∧
      (init_allocator s0 capacity strategy).memory_pool.isSome = true := by
  have hsz : (capacity + SIZE_MOD - sizeof_MemoryBlock) % SIZE_MOD =
      capacity - sizeof_MemoryBlock := by
    simp only [sizeof_MemoryBlock, SIZE_MOD, SIZE_MAX] at *
    omega
  have hch : (init_allocator s0 capacity strategy).first_block =
      [{ addr := 0, size := capacity - sizeof_MemoryBlock, is_free := true }] := by
    unfold init_allocator
    simp only [hsz]
  refine ⟨hch, ?_, ?_, ?_, rfl, rfl, rfl⟩
  · unfold get_free_memory
    rw [hch]
    simp only [get_free_memory_from, if_true, Nat.zero_add]
    apply Nat.mod_eq_of_lt
    simp only [sizeof_MemoryBlock, SIZE_MOD, SIZE_MAX] at *
    omega
  · unfold get_used_memory
    rw [hch]
    simp [get_used_memory_from]
  · unfold get_fragmentation
    rw [hch]
    simp [free_block_count_from]

/-- The start of `main`: `init_allocator(1024, FIRST_FIT)` in the state of the statics,
and `init_allocator(1024, BEST_FIT)` on top of a pool with three blocks in use. -/
theorem init_postcondition_witness :
    sizeof_MemoryBlock ≤ 1024 ∧ 1024 ≤ SIZE_MAX ∧
      (init_allocator static_state 1024 AllocationStrategy.FIRST_FIT).first_block =
        [{ addr := 0, size := 1000, is_free := true }] ∧
      (run (fresh static_state 1024 AllocationStrategy.FIRST_FIT)
          [Op.alloc 100, Op.alloc 200, Op.alloc 300]).map
        (fun c => (c.live,
          (init_allocator c.heap 1024 AllocationStrategy.BEST_FIT).first_block,
          get_free_memory (init_allocator c.heap 1024 AllocationStrategy.BEST_FIT),
          get_used_memory (init_allocator c.heap 1024 AllocationStrategy.BEST_FIT),
          (init_allocator c.heap 1024 AllocationStrategy.BEST_FIT).current_strategy)) =
        some ([24, 148, 372], [{ addr := 0, size := 1000, is_free := true }], 1000, 0,
          AllocationStrategy.BEST_FIT) ∧
      get_fragmentation (init_allocator static_state 1024 AllocationStrategy.FIRST_FIT) = 0 :=
  ⟨by decide, by decide,
    (init_postcondition static_state 1024 AllocationStrategy.FIRST_FIT
      (by decide) (by decide)).1,
    by decide,
    (init_postcondition static_state 1024 AllocationStrategy.FIRST_FIT
      (by decide) (by decide)).2.2.2.1⟩

/-- C18, `split_block`: for a block `b` of a chain that tiles the pool, with the chain
`pre ++ b :: post`, and a requested size `r ≤ b.size`, `split_block(b, r)` changes the
chain exactly when `b.size > r + sizeof(MemoryBlock) + 8`.  When it splits, `b` gets
the size `r` and keeps its free flag, and a free block of
`b.size - r - sizeof(MemoryBlock)` bytes stands right behind it, at the offset
`b.addr + sizeof(MemoryBlock) + r`, followed by the old successors of `b`.  When it
does not split, the state is unchanged. -/
theorem split_block_spec (s : Allocator) (pre post : List MemoryBlock) (b : MemoryBlock)
    (r : Nat) (hwf : well_formed s) (hch : s.first_block = pre ++ b :: post)
    (hr : r ≤ b.size) :
    ((split_block s b.addr r).first_block ≠ s.first_block ↔
        b.size > r + sizeof_MemoryBlock + 8) ∧
      (b.size > r + sizeof_MemoryBlock + 8 →
        (split_block s b.addr r).first_block =
          pre ++ { b with size := r } ::
            { addr := b.addr + sizeof_MemoryBlock + r,
              size := b.size - r - sizeof_MemoryBlock, is_free := true } :: post) ∧
      (¬ b.size > r + sizeof_MemoryBlock + 8 → split_block s b.addr r = s) := by
  have hok := hwf.2.2.2
  have hb : b ∈ s.first_block := by rw [hch]; simp
  have hx := header_at_of_mem hok hb
  have hsz := chain_ok_mem hok hb
  have hmax := hwf.2.2.1
  have hmod : (r + sizeof_MemoryBlock + 8) % SIZE_MOD = r + sizeof_MemoryBlock + 8 := by
    apply Nat.mod_eq_of_lt
    simp only [sizeof_MemoryBlock, SIZE_MOD, PTRDIFF_MAX] at *
    omega
  have hsplit : b.size > r + sizeof_MemoryBlock + 8 →
      (split_block s b.addr r).first_block =
        pre ++ { b with size := r } ::
          { addr := b.addr + sizeof_MemoryBlock + r,
            size := b.size - r - sizeof_MemoryBlock, is_free := true } :: post := by
    intro hc
    rw [split_block_eq hx, hmod, if_pos hc]
    show at_block (split_node r) s.first_block b.addr = _
    rw [hch] at hok
    rw [hch, at_block_append (fun x hx1 => Nat.ne_of_lt (chain_ok_append_lt hok x hx1)) rfl]
    have e : (b.size + 2 * SIZE_MOD - r - sizeof_MemoryBlock) % SIZE_MOD =
        b.size - r - sizeof_MemoryBlock := by
      simp only [sizeof_MemoryBlock, SIZE_MOD, PTRDIFF_MAX] at *
      omega
    simp only [split_node, e]
  have hkeep : ¬ b.size > r + sizeof_MemoryBlock + 8 → split_block s b.addr r = s := by
    intro hc
    rw [split_block_eq hx, hmod, if_neg hc]
  refine ⟨⟨fun hne => ?_, fun hc => ?_⟩, hsplit, hkeep⟩
  · by_contra hc
    exact hne (by rw [hkeep hc])
  · intro heq
    have h1 := congrArg List.length heq
    rw [hsplit hc, hch] at h1
    simp only [List.length_append, List.length_cons] at h1
    omega

/-- The first allocation of `main`: the 1000-byte block is split for a request of 100
bytes into a block of 100 bytes and a free block of 876 bytes at offset 124; a request
of 980 bytes leaves it whole. -/
theorem split_block_spec_witness :
    well_formed (init_allocator static_state 1024 AllocationStrategy.FIRST_FIT) ∧
      (split_block (init_allocator static_state 1024 AllocationStrategy.FIRST_FIT) 0
          100).first_block =
        [{ addr := 0, size := 100, is_free := true }, { addr := 124, size := 876, is_free := true }] ∧
      (split_block (init_allocator static_state 1024 AllocationStrategy.FIRST_FIT) 0
          980).first_block = [{ addr := 0, size := 1000, is_free := true }] ∧
      ((split_block (init_allocator static_state 1024 AllocationStrategy.FIRST_FIT) 0
          100).first_block ≠
          (init_allocator static_state 1024 AllocationStrategy.FIRST_FIT).first_block ↔
        1000 > 100 + sizeof_MemoryBlock + 8) :=
  ⟨init_allocator_ok static_state AllocationStrategy.FIRST_FIT (by decide) (by decide),
    by decide, by decide,
    (split_block_spec (init_allocator static_state 1024 AllocationStrategy.FIRST_FIT) [] []
      { addr := 0, size := 1000, is_free := true } 100
      (init_allocator_ok static_state AllocationStrategy.FIRST_FIT (by decide) (by decide))
      (by decide) (by decide)).1⟩

/-- C19, bounded internal fragmentation: in a reachable state, when `mem_alloc(n)`
returns a pointer, its block is in use and has between `n` and
`n + sizeof(MemoryBlock) + 8` bytes, and every node of the chain that was not there
before, other than that block, is free and larger than 8 bytes.  The same holds for
every call of `split_block` on a node `b0` with a size `r ≤ b0.size`: the node it
creates is free and larger than 8 bytes. -/
theorem alloc_block_bounds (c : Client) (n q a r : Nat) (b0 : MemoryBlock)
    (hc : reachable c) :
    ((mem_alloc c.heap n).2 = some q →
        (∃ b, b ∈ (mem_alloc c.heap n).1.first_block ∧ get_data_pointer b.addr = q ∧
          b.is_free = false ∧ n ≤ b.size ∧ b.size ≤ n + sizeof_MemoryBlock + 8) ∧
        ∀ x, x ∈ (mem_alloc c.heap n).1.first_block → x ∉ c.heap.first_block →
          get_data_pointer x.addr ≠ q → x.is_free = true ∧ 8 < x.size) ∧
      (header_at c.heap.first_block a = some b0 → r ≤ b0.size →
        ∀ x, x ∈ (split_block c.heap a r).first_block → x ∉ c.heap.first_block →
          x.addr ≠ a → x.is_free = true ∧ 8 < x.size) := by
  have hwf := (reachable_client_ok hc).1
  constructor
  · intro hq
    rcases mem_alloc_cases c.heap n with ⟨h, _⟩ | ⟨blk, h0, hp, hb, h⟩
    · rw [h] at hq; cases hq
    · rw [h] at hq ⊢
      simp only [Option.some.injEq] at hq
      obtain ⟨hmem, hfree, hsize⟩ := chosen_block_some hb
      have hx := header_at_of_mem hwf.2.2.2 hmem
      have hbnd := chain_ok_mem hwf.2.2.2 hmem
      have hmax := hwf.2.2.1
      obtain ⟨hwf1, _, _, _, _, _⟩ := split_block_ok (n := n) hwf hx hsize
      -- the node at `blk.addr` after the split
      have hnode : ∃ b1, b1 ∈ (split_block c.heap blk.addr n).first_block ∧
          b1.addr = blk.addr ∧ n ≤ b1.size ∧ b1.size ≤ n + sizeof_MemoryBlock + 8 := by
        rw [split_block_eq hx]
        by_cases hcnd : blk.size > (n + sizeof_MemoryBlock + 8) % SIZE_MOD
        · rw [if_pos hcnd]
          exact ⟨_, split_target hx, rfl, Nat.le_refl _, by
            show n ≤ n + sizeof_MemoryBlock + 8
            omega⟩
        · rw [if_neg hcnd]
          refine ⟨blk, hmem, rfl, hsize, ?_⟩
          simp only [sizeof_MemoryBlock, SIZE_MOD, PTRDIFF_MAX] at *
          omega
      obtain ⟨b1, hb1, hb1a, hb1n, hb1s⟩ := hnode
      have hx1 := header_at_of_mem hwf1.2.2.2 hb1
      rw [hb1a] at hx1
      constructor
      · refine ⟨_, set_is_free_target (v := false) hx1, ?_, rfl, hb1n, hb1s⟩
        show get_data_pointer b1.addr = q
        rw [hb1a]
        exact hq
      · intro x hx2 hnew hne
        have hxa : x.addr ≠ blk.addr := by
          intro e
          apply hne
          rw [e]
          exact hq
        have h1 : x ∈ (split_block c.heap blk.addr n).first_block ∨ x.addr = blk.addr :=
          at_block_sub (P := fun y => y.addr = blk.addr)
            (fun b next _ hba y hy => by
              rcases List.mem_cons.1 hy with h2 | h2
              · right
                rw [h2]
                exact hba
              · exact Or.inl h2) hx2
        rcases h1 with h1 | h1
        · rcases split_block_sub hwf hx hsize h1 with h2 | h2 | h2
          · exact absurd h2 hnew
          · exact absurd h2 hxa
          · exact h2
        · exact absurd h1 hxa
  · intro ha hr x hx hnew hne
    rcases split_block_sub hwf ha hr hx with h2 | h2 | h2
    · exact absurd h2 hnew
    · exact absurd h2 hne
    · exact h2

/-- The first allocations of `main`: `mem_alloc(100)` in the fresh pool of 1024 bytes
returns a block of exactly 100 bytes and creates a free block of 876 bytes; in a pool
of 150 bytes the request for 100 bytes gets the whole block of 126 bytes, which is
within `100 + sizeof(MemoryBlock) + 8`. -/
theorem alloc_block_bounds_witness :
    (mem_alloc (fresh static_state 1024 AllocationStrategy.FIRST_FIT).heap 100).2 = some 24 ∧
      (mem_alloc (fresh static_state 1024 AllocationStrategy.FIRST_FIT).heap 100).1.first_block =
        [{ addr := 0, size := 100, is_free := false }, { addr := 124, size := 876, is_free := true }] ∧
      (mem_alloc (fresh static_state 150 AllocationStrategy.FIRST_FIT).heap 100).1.first_block =
        [{ addr := 0, size := 126, is_free := false }] ∧
      ((∃ b, b ∈ (mem_alloc (fresh static_state 150
              AllocationStrategy.FIRST_FIT).heap 100).1.first_block ∧
          get_data_pointer b.addr = 24 ∧
          b.is_free = false ∧ 100 ≤ b.size ∧ b.size ≤ 100 + sizeof_MemoryBlock + 8) ∧
        ∀ x, x ∈ (mem_alloc (fresh static_state 150
              AllocationStrategy.FIRST_FIT).heap 100).1.first_block →
          x ∉ (fresh static_state 150 AllocationStrategy.FIRST_FIT).heap.first_block →
          get_data_pointer x.addr ≠ 24 → x.is_free = true ∧ 8 < x.size) :=
  ⟨by decide, by decide, by decide,
    (alloc_block_bounds (fresh static_state 150 AllocationStrategy.FIRST_FIT) 100 24 0 0
      { addr := 0, size := 126, is_free := true }
      ⟨static_state, 150, AllocationStrategy.FIRST_FIT, [], by decide, by decide, rfl⟩).1
      (by decide)⟩

end CustomMemoryAllocator
